import Mathlib

/-! # SimpleStorage: a key-value store over `std::map<std::string, std::string>`

Shallow embedding of `cpp/Storage.h` and `cpp/Storage.cpp`.

* A `std::string` is a list of bytes; `operator<` on strings is the byte-wise
  lexicographic order (`strLess`).
* The `std::map` member `storage_` is the list of its entries in iteration
  order.  The map member functions the class calls (`find`, `operator[]`,
  assignment through the returned reference, `erase`, `clear`, `size`,
  `empty`, iteration) are the functions of `StdMap`; they search with the
  comparator only, as the container does.
* Each member function of `SimpleStorage` becomes a function from the store
  before the call to its return value and the store after the call; these
  functions leave the mutex out.
* `Object` adds the mutex as a flag and gives every call its failure modes:
  locking a held mutex, dereferencing `end()`, an exception that is thrown
  and not caught.
* `set` evaluates `storage_[key] = value` inside `try`/`catch`.  The two
  places where that statement can throw (creating the node in `operator[]`,
  copying the value in the assignment) are decided by an `Alloc` argument.
-/

namespace storage

/-! ## Strings -/

/-- One `char` of a `std::string`, compared as `unsigned char`. -/
abbrev Byte := Fin 256

/-- A `std::string`: its sequence of bytes. -/
abbrev CppString := List Byte

/-- The separator `","` written by `getAllKeys`. -/
def comma : CppString := [44]

/-- `operator<` on `std::string` (`std::less<std::string>`, the comparator of
the map): byte-wise lexicographic, and a string is smaller than every
string that extends it. -/
def strLess : CppString → CppString → Bool
  | [], [] => false
  | [], _ :: _ => true
  | _ :: _, [] => false
  | a :: as, b :: bs =>
    if a < b then true else if b < a then false else strLess as bs

/-! ## The container -/

/-- A `std::pair<const std::string, std::string>`: key first, value second. -/
abbrev Entry := CppString × CppString

/-- A `std::map<std::string, std::string>`: its entries in iteration order. -/
abbrev StdMap := List Entry

namespace StdMap

/-- The representation invariant of the container: keys strictly ascending. -/
def Sorted (m : StdMap) : Prop :=
  List.Pairwise (fun p q => strLess p.1 q.1 = true) m

instance (m : StdMap) : Decidable (Sorted m) := by
  unfold Sorted; infer_instance

/-- The keys in iteration order. -/
def keys (m : StdMap) : List CppString := m.map Prod.fst

/-- `find(key)`: the first entry whose key is not less than `key`, when `key`
is not less than that entry's key either; `none` stands for `end()`. -/
def find (key : CppString) : StdMap → Option Entry
  | [] => none
  | p :: rest =>
    if strLess p.1 key then find key rest
    else if strLess key p.1 then none
    else some p

/-- The effect of `operator[](key)` on the container: when no entry is
equivalent to `key`, a node with a value-initialised (empty) string is
inserted at its ordered position; otherwise nothing changes. -/
def subscript (key : CppString) : StdMap → StdMap
  | [] => [(key, [])]
  | p :: rest =>
    if strLess p.1 key then p :: subscript key rest
    else if strLess key p.1 then (key, []) :: p :: rest
    else p :: rest

/-- Assignment of `value` through the reference `operator[](key)` returned:
the mapped string of the entry equivalent to `key` becomes `value`. -/
def assign (key value : CppString) : StdMap → StdMap
  | [] => []
  | p :: rest =>
    if strLess p.1 key then p :: assign key value rest
    else if strLess key p.1 then p :: rest
    else (p.1, value) :: rest

/-- `erase(key)`: the container without the entry equivalent to `key`, and
the number of entries removed. -/
def erase (key : CppString) : StdMap → StdMap × Nat
  | [] => ([], 0)
  | p :: rest =>
    if strLess p.1 key then ((p :: (erase key rest).1), (erase key rest).2)
    else if strLess key p.1 then (p :: rest, 0)
    else (rest, 1)

/-- `clear()`. -/
def clear (_ : StdMap) : StdMap := []

/-- `size()`. -/
def size (m : StdMap) : Nat := m.length

/-- `empty()`. -/
def empty (m : StdMap) : Bool := m.isEmpty

end StdMap

/-! ## The class -/

/-- The data members of `SimpleStorage` (the mutex left out). -/
structure SimpleStorage where
  storage_ : StdMap
deriving DecidableEq, Repr

/-- Which of the two throwing steps of `storage_[key] = value` succeed.
`node`: creating the map node for a new key in `operator[]` (consulted only
when the key has no entry).  `assign`: copying `value` into the mapped
string. -/
structure Alloc where
  node : Bool
  assign : Bool
deriving DecidableEq, Repr

/-- No resource exhaustion. -/
def Alloc.ok : Alloc := ⟨true, true⟩

namespace SimpleStorage

/-- The constructor: an empty map. -/
def new : SimpleStorage := ⟨[]⟩

/-- `SimpleStorage::set`.
`try { storage_[key] = value; return true; } catch (const std::exception&) { return false; }`
An exception thrown by `operator[]` leaves the map as it was; one thrown by
the assignment leaves the mapped string as it was, after `operator[]` has
run. -/
def set (a : Alloc) (s : SimpleStorage) (key value : CppString) : Bool × SimpleStorage :=
  if (StdMap.find key s.storage_).isNone && !a.node then
    (false, s)
  else
    let m := StdMap.subscript key s.storage_
    if !a.assign then (false, ⟨m⟩)
    else (true, ⟨StdMap.assign key value m⟩)

/-- `SimpleStorage::get`. -/
def get (s : SimpleStorage) (key : CppString) : Option CppString :=
  match StdMap.find key s.storage_ with
  | some it => some it.2
  | none => none

/-- `SimpleStorage::remove`: `return storage_.erase(key) > 0;`. -/
def remove (s : SimpleStorage) (key : CppString) : Bool × SimpleStorage :=
  (decide ((StdMap.erase key s.storage_).2 > 0), ⟨(StdMap.erase key s.storage_).1⟩)

/-- `SimpleStorage::has`: `return storage_.find(key) != storage_.end();`. -/
def has (s : SimpleStorage) (key : CppString) : Bool :=
  (StdMap.find key s.storage_).isSome

/-- `SimpleStorage::clear`. -/
def clear (s : SimpleStorage) : SimpleStorage :=
  ⟨StdMap.clear s.storage_⟩

/-- `SimpleStorage::size`. -/
def size (s : SimpleStorage) : Nat :=
  StdMap.size s.storage_

/-- The range-for loop of `getAllKeys`; the state is the stream contents and
the flag `first`. -/
def getAllKeysLoop : List Entry → CppString × Bool → CppString × Bool
  | [], st => st
  | pair :: rest, (oss, first) =>
    getAllKeysLoop rest ((if !first then oss ++ comma else oss) ++ pair.1, false)

/-- `SimpleStorage::getAllKeys`. -/
def getAllKeys (s : SimpleStorage) : CppString :=
  if StdMap.empty s.storage_ then []
  else (getAllKeysLoop s.storage_ ([], true)).1

/-- The keys of the entries, in iteration order. -/
def keys (s : SimpleStorage) : List CppString := StdMap.keys s.storage_

/-- The invariant of the member `storage_`. -/
def WellFormed (s : SimpleStorage) : Prop := StdMap.Sorted s.storage_

instance (s : SimpleStorage) : Decidable (WellFormed s) := by
  unfold WellFormed; infer_instance

end SimpleStorage

/-! ## Sequences of calls -/

/-- A call of one of the seven public member functions. -/
inductive Op where
  | set (a : Alloc) (key value : CppString)
  | get (key : CppString)
  | remove (key : CppString)
  | has (key : CppString)
  | clear
  | size
  | getAllKeys
deriving DecidableEq, Repr

/-- What a call returns. -/
inductive Ret where
  | bool (b : Bool)
  | value (o : Option CppString)
  | void
  | count (n : Nat)
  | str (s : CppString)
deriving DecidableEq, Repr

/-- One call: its return value and the store after it. -/
def step (s : SimpleStorage) : Op → Ret × SimpleStorage
  | Op.set a key value => (Ret.bool (s.set a key value).1, (s.set a key value).2)
  | Op.get key => (Ret.value (s.get key), s)
  | Op.remove key => (Ret.bool (s.remove key).1, (s.remove key).2)
  | Op.has key => (Ret.bool (s.has key), s)
  | Op.clear => (Ret.void, s.clear)
  | Op.size => (Ret.count s.size, s)
  | Op.getAllKeys => (Ret.str s.getAllKeys, s)

/-- The store after a sequence of calls. -/
def run (s : SimpleStorage) : List Op → SimpleStorage
  | [] => s
  | op :: ops => run (step s op).2 ops

/-- The stores an object can be in: those a sequence of calls produces from
a freshly constructed one. -/
def Reachable (s : SimpleStorage) : Prop :=
  ∃ ops : List Op, run SimpleStorage.new ops = s

/-- A call that may change the state of `key`: `set` or `remove` on that
key, or `clear`. -/
def Op.mutates (key : CppString) : Op → Bool
  | Op.set _ k _ => decide (k = key)
  | Op.remove k => decide (k = key)
  | Op.clear => true
  | _ => false



/-- What the calls of a sequence return, in order. -/
def results (s : SimpleStorage) : List Op → List Ret
  | [] => []
  | op :: ops => (step s op).1 :: results (step s op).2 ops

/-- The four calls that only read: `get`, `has`, `size`, `getAllKeys`. -/
def Op.isRead : Op → Bool
  | Op.get _ => true
  | Op.has _ => true
  | Op.size => true
  | Op.getAllKeys => true
  | _ => false

/-- A string without the separator byte of `getAllKeys`. -/
def noSeparator (k : CppString) : Prop := ∀ b ∈ comma, b ∉ k

instance (k : CppString) : Decidable (noSeparator k) :=
  List.decidableBAll (fun b => b ∉ k) comma

/-! ## Calls with their failure modes -/

/-- What can go wrong in a call. -/
inductive Exn where
  /-- `std::bad_alloc`, thrown inside `storage_[key] = value`. -/
  | badAlloc
  /-- `mutex_.lock()` on a mutex that is already held. -/
  | relock
  /-- Dereference of `storage_.end()`. -/
  | derefEnd
deriving DecidableEq, Repr

/-- Whether `catch (const std::exception&)` catches it: `std::bad_alloc` is a
`std::exception`; undefined behaviour is not an exception. -/
def Exn.isStdException : Exn → Bool
  | Exn.badAlloc => true
  | Exn.relock => false
  | Exn.derefEnd => false

/-- The object: the member `storage_`, and whether `mutex_` is held. -/
structure Object where
  store : SimpleStorage
  mutex_ : Bool
deriving DecidableEq, Repr

/-- `it->second` needs `it` to point at an entry. -/
def StdMap.deref (it : Option Entry) : Except Exn Entry :=
  match it with
  | some p => Except.ok p
  | none => Except.error Exn.derefEnd

/-- The statement `storage_[key] = value`: what it throws, if anything, and
the map it leaves. -/
def assignSubscript (a : Alloc) (m : StdMap) (key value : CppString) :
    Except Exn Unit × StdMap :=
  if (StdMap.find key m).isNone && !a.node then (Except.error Exn.badAlloc, m)
  else if !a.assign then (Except.error Exn.badAlloc, StdMap.subscript key m)
  else (Except.ok (), StdMap.assign key value (StdMap.subscript key m))

/-- The body of `set` below the lock:
`try { storage_[key] = value; return true; } catch (const std::exception&) { return false; }`. -/
def setBody (a : Alloc) (key value : CppString) (s : SimpleStorage) :
    Except Exn Bool × SimpleStorage :=
  match assignSubscript a s.storage_ key value with
  | (Except.ok _, m) => (Except.ok true, ⟨m⟩)
  | (Except.error e, m) =>
    if e.isStdException then (Except.ok false, ⟨m⟩) else (Except.error e, ⟨m⟩)

/-- The body of `get` below the lock:
`auto it = storage_.find(key); if (it != storage_.end()) { return it->second; } return std::nullopt;`. -/
def getBody (key : CppString) (s : SimpleStorage) :
    Except Exn (Option CppString) × SimpleStorage :=
  if (StdMap.find key s.storage_).isSome then
    match StdMap.deref (StdMap.find key s.storage_) with
    | Except.ok p => (Except.ok (some p.2), s)
    | Except.error e => (Except.error e, s)
  else (Except.ok none, s)

namespace Object

/-- The constructor of `SimpleStorage`: empty map, mutex free. -/
def new : Object := ⟨SimpleStorage.new, false⟩

/-- The constructor of `std::lock_guard<std::mutex> lock(mutex_)`. -/
def lock (o : Object) : Except Exn Unit × Object :=
  if o.mutex_ then (Except.error Exn.relock, o) else (Except.ok (), ⟨o.store, true⟩)

/-- The destructor of the `std::lock_guard`, run on every exit from the
function. -/
def unlock (o : Object) : Object := ⟨o.store, false⟩

/-- A member function: the guard is constructed, the body runs on the map,
and the guard is destroyed when the body returns or throws. -/
def withLock {α : Type} (o : Object)
    (body : SimpleStorage → Except Exn α × SimpleStorage) : Except Exn α × Object :=
  match o.lock with
  | (Except.error e, o0) => (Except.error e, o0)
  | (Except.ok _, o1) => ((body o1.store).1, unlock ⟨(body o1.store).2, o1.mutex_⟩)

/-- `SimpleStorage::set` as called. -/
def set (a : Alloc) (o : Object) (key value : CppString) : Except Exn Bool × Object :=
  o.withLock (setBody a key value)

/-- `SimpleStorage::get` as called. -/
def get (o : Object) (key : CppString) : Except Exn (Option CppString) × Object :=
  o.withLock (getBody key)

/-- `SimpleStorage::remove` as called. -/
def remove (o : Object) (key : CppString) : Except Exn Bool × Object :=
  o.withLock (fun s => (Except.ok (s.remove key).1, (s.remove key).2))

/-- `SimpleStorage::has` as called. -/
def has (o : Object) (key : CppString) : Except Exn Bool × Object :=
  o.withLock (fun s => (Except.ok (s.has key), s))

/-- `SimpleStorage::clear` as called. -/
def clear (o : Object) : Except Exn Unit × Object :=
  o.withLock (fun s => (Except.ok (), s.clear))

/-- `SimpleStorage::size` as called. -/
def size (o : Object) : Except Exn Nat × Object :=
  o.withLock (fun s => (Except.ok s.size, s))

/-- `SimpleStorage::getAllKeys` as called. -/
def getAllKeys (o : Object) : Except Exn CppString × Object :=
  o.withLock (fun s => (Except.ok s.getAllKeys, s))

/-- One call on the object: what it returns or raises, and the object
afterwards. -/
def call (o : Object) : Op → Except Exn Ret × Object
  | Op.set a key value => (Except.map Ret.bool (o.set a key value).1, (o.set a key value).2)
  | Op.get key => (Except.map Ret.value (o.get key).1, (o.get key).2)
  | Op.remove key => (Except.map Ret.bool (o.remove key).1, (o.remove key).2)
  | Op.has key => (Except.map Ret.bool (o.has key).1, (o.has key).2)
  | Op.clear => (Except.map (fun _ => Ret.void) o.clear.1, o.clear.2)
  | Op.size => (Except.map Ret.count o.size.1, o.size.2)
  | Op.getAllKeys => (Except.map Ret.str o.getAllKeys.1, o.getAllKeys.2)

/-- A sequence of calls; it stops at the first call that raises. -/
def callAll (o : Object) : List Op → Except Exn (List Ret) × Object
  | [] => (Except.ok [], o)
  | op :: ops =>
    match o.call op with
    | (Except.error e, o1) => (Except.error e, o1)
    | (Except.ok r, o1) =>
      (Except.map (fun rs => r :: rs) (callAll o1 ops).1, (callAll o1 ops).2)

end Object

/-! ## Sample inputs -/

/-- The store `a ↦ 1`. -/
def storeA : SimpleStorage := ⟨[([97], [49])]⟩

/-- The store `a ↦ 1, b ↦ 2`. -/
def storeAB : SimpleStorage := ⟨[([97], [49]), ([98], [50])]⟩

/-- A 32-byte value: longer than the buffer a `std::string` holds in place,
so that copying it into a freshly created mapped string has to allocate. -/
def longValue : CppString := List.replicate 32 120

/-- The store whose only key is the empty string. -/
def storeEmptyKey : SimpleStorage := ⟨[([], [49])]⟩

/-- The calls of the scenario: `set("a","1")`, `set("b","2")`, `size()`,
`getAllKeys()`, `remove("a")`, `get("a")`, `remove("a")`, `clear()`, `size()`. -/
def scenario : List Op :=
  [Op.set Alloc.ok [97] [49], Op.set Alloc.ok [98] [50], Op.size, Op.getAllKeys,
   Op.remove [97], Op.get [97], Op.remove [97], Op.clear, Op.size]

/-- The calls that build a map entry by entry. -/
def buildOps (m : StdMap) : List Op := m.map (fun p => Op.set Alloc.ok p.1 p.2)

/-! ## The order on strings -/

theorem strLess_irrefl (a : CppString) : strLess a a = false := by
  induction a with
  | nil => rfl
  | cons x xs ih => simp [strLess, ih]

theorem strLess_trans {a b c : CppString} (hab : strLess a b = true)
    (hbc : strLess b c = true) : strLess a c = true := by
  induction a generalizing b c with
  | nil =>
    cases b with
    | nil => simp [strLess] at hab
    | cons y ys =>
      cases c with
      | nil => simp [strLess] at hbc
      | cons z zs => simp [strLess]
  | cons x xs ih =>
    cases b with
    | nil => simp [strLess] at hab
    | cons y ys =>
      cases c with
      | nil => simp [strLess] at hbc
      | cons z zs =>
        simp only [strLess] at hab hbc ⊢
        split_ifs at hab hbc ⊢ with h1 h2 h3 h4 h5 h6
        all_goals first
          | rfl
          | exact ih hab hbc
          | (exfalso; simp only [Fin.lt_def] at *; omega)

theorem strLess_asymm {a b : CppString} (hab : strLess a b = true) :
    strLess b a = false := by
  cases h : strLess b a with
  | false => rfl
  | true =>
    have := strLess_trans hab h
    rw [strLess_irrefl] at this
    exact absurd this (by decide)

theorem strLess_connex {a b : CppString} (hab : strLess a b = false)
    (hba : strLess b a = false) : a = b := by
  induction a generalizing b with
  | nil =>
    cases b with
    | nil => rfl
    | cons y ys => simp [strLess] at hab
  | cons x xs ih =>
    cases b with
    | nil => simp [strLess] at hba
    | cons y ys =>
      simp only [strLess] at hab hba
      split_ifs at hab hba with h1 h2
      have hxy : x = y := le_antisymm (not_lt.mp h2) (not_lt.mp h1)
      rw [hxy, ih hab hba]

/-- The three ways two strings compare, with the value of both tests. -/
theorem strLess_cases (a b : CppString) :
    (strLess a b = true ∧ strLess b a = false) ∨
    (a = b ∧ strLess a b = false ∧ strLess b a = false) ∨
    (strLess b a = true ∧ strLess a b = false) := by
  cases hab : strLess a b with
  | true => exact Or.inl ⟨rfl, strLess_asymm hab⟩
  | false =>
    cases hba : strLess b a with
    | true => exact Or.inr (Or.inr ⟨rfl, rfl⟩)
    | false => exact Or.inr (Or.inl ⟨strLess_connex hab hba, rfl, rfl⟩)

/-! ## The container functions -/

namespace StdMap

theorem sorted_cons {p : Entry} {m : StdMap} :
    Sorted (p :: m) ↔ (∀ q ∈ m, strLess p.1 q.1 = true) ∧ Sorted m := by
  unfold Sorted
  exact List.pairwise_cons

theorem sorted_nil : Sorted [] := by
  unfold Sorted
  exact List.Pairwise.nil

/-- A key below every key of the map is not found. -/
theorem find_of_forall_lt {key : CppString} {m : StdMap}
    (h : ∀ q ∈ m, strLess key q.1 = true) : find key m = none := by
  cases m with
  | nil => rfl
  | cons p rest =>
    have h1 := h p (List.mem_cons_self _ _)
    simp [find, h1, strLess_asymm h1]

/-- On a sorted map `find` returns the entry with that very key. -/
theorem find_eq_some_iff {key : CppString} {m : StdMap} (hs : Sorted m) (p : Entry) :
    find key m = some p ↔ p ∈ m ∧ p.1 = key := by
  induction m with
  | nil => simp [find]
  | cons q rest ih =>
    obtain ⟨hq, hrest⟩ := sorted_cons.mp hs
    rcases strLess_cases q.1 key with ⟨h1, h2⟩ | ⟨h0, h1, h2⟩ | ⟨h1, h2⟩
    · simp only [find, h1, if_true, ih hrest, List.mem_cons]
      constructor
      · rintro ⟨hp, hk⟩
        exact ⟨Or.inr hp, hk⟩
      · rintro ⟨hp | hp, hk⟩
        · subst hp
          rw [hk, strLess_irrefl] at h1
          exact absurd h1 (by decide)
        · exact ⟨hp, hk⟩
    · simp only [find, h1, h2, List.mem_cons]
      constructor
      · intro h
        have hpq : q = p := by simpa using h
        subst hpq
        exact ⟨Or.inl rfl, h0⟩
      · rintro ⟨hp | hp, hk⟩
        · subst hp
          simp
        · have := hq p hp
          rw [h0, hk, strLess_irrefl] at this
          exact absurd this (by decide)
    · simp only [find, h1, h2, List.mem_cons]
      constructor
      · intro h
        simp at h
      · rintro ⟨hp | hp, hk⟩
        · subst hp
          rw [hk, strLess_irrefl] at h1
          exact absurd h1 (by decide)
        · have h3 := hq p hp
          rw [hk] at h3
          rw [strLess_asymm h3] at h1
          exact absurd h1 (by decide)

/-- On a sorted map `find` fails exactly on the keys without an entry. -/
theorem find_eq_none_iff {key : CppString} {m : StdMap} (hs : Sorted m) :
    find key m = none ↔ key ∉ keys m := by
  constructor
  · intro h hk
    obtain ⟨p, hp, hpk⟩ := List.mem_map.mp hk
    have := (find_eq_some_iff hs p).mpr ⟨hp, hpk⟩
    rw [h] at this
    exact absurd this (by simp)
  · intro h
    cases hf : find key m with
    | none => rfl
    | some p =>
      obtain ⟨hp, hpk⟩ := (find_eq_some_iff hs p).mp hf
      exact absurd (List.mem_map.mpr ⟨p, hp, hpk⟩) h

/-- The key of a found entry is the key searched for. -/
theorem find_key {key : CppString} {m : StdMap} {p : Entry}
    (h : find key m = some p) : p.1 = key := by
  induction m with
  | nil => simp [find] at h
  | cons q rest ih =>
    rcases strLess_cases q.1 key with ⟨h1, h2⟩ | ⟨h0, h1, h2⟩ | ⟨h1, h2⟩
    · simp only [find, h1, if_true] at h
      exact ih h
    · simp only [find, h1, h2] at h
      have hpq : q = p := by simpa using h
      rw [← hpq]
      exact h0
    · simp [find, h1, h2] at h

theorem isSome_find_iff {key : CppString} {m : StdMap} (hs : Sorted m) :
    (find key m).isSome = true ↔ key ∈ keys m := by
  rw [← not_iff_not, ← find_eq_none_iff hs]
  cases find key m <;> simp

/-! ### `operator[]` -/

theorem mem_subscript {key : CppString} {m : StdMap} {q : Entry}
    (h : q ∈ subscript key m) : q ∈ m ∨ q = (key, []) := by
  induction m with
  | nil =>
    simp only [subscript, List.mem_singleton] at h
    exact Or.inr h
  | cons p rest ih =>
    rcases strLess_cases p.1 key with ⟨h1, h2⟩ | ⟨h0, h1, h2⟩ | ⟨h1, h2⟩
    · simp only [subscript, h1, if_true, List.mem_cons] at h
      rcases h with h | h
      · exact Or.inl (List.mem_cons.mpr (Or.inl h))
      · rcases ih h with h | h
        · exact Or.inl (List.mem_cons_of_mem _ h)
        · exact Or.inr h
    · simp only [subscript, h1, h2] at h
      exact Or.inl (by simpa using h)
    · simp only [subscript, h1, h2, if_true, Bool.false_eq_true, if_false,
        List.mem_cons] at h
      rcases h with h | h
      · exact Or.inr h
      · exact Or.inl (List.mem_cons.mpr h)

theorem sorted_subscript {key : CppString} {m : StdMap} (hs : Sorted m) :
    Sorted (subscript key m) := by
  induction m with
  | nil =>
    unfold Sorted
    simp [subscript]
  | cons p rest ih =>
    obtain ⟨hp, hrest⟩ := sorted_cons.mp hs
    rcases strLess_cases p.1 key with ⟨h1, h2⟩ | ⟨h0, h1, h2⟩ | ⟨h1, h2⟩
    · simp only [subscript, h1, if_true]
      refine sorted_cons.mpr ⟨?_, ih hrest⟩
      intro q hq
      rcases mem_subscript hq with hq | hq
      · exact hp q hq
      · rw [hq]
        exact h1
    · simp only [subscript, h1, h2]
      exact hs
    · simp only [subscript, h1, h2, if_true, Bool.false_eq_true, if_false]
      refine sorted_cons.mpr ⟨?_, hs⟩
      intro q hq
      rcases List.mem_cons.mp hq with hq | hq
      · rw [hq]
        exact h1
      · exact strLess_trans h1 (hp q hq)

/-- After `operator[](key)` the key has an entry: the one it had, or a new
one with the empty string. -/
theorem find_subscript_self (key : CppString) (m : StdMap) :
    find key (subscript key m) = some ((find key m).getD (key, [])) := by
  induction m with
  | nil => simp [subscript, find, strLess_irrefl]
  | cons p rest ih =>
    rcases strLess_cases p.1 key with ⟨h1, h2⟩ | ⟨h0, h1, h2⟩ | ⟨h1, h2⟩
    · simp only [subscript, find, h1, if_true]
      exact ih
    · simp [subscript, find, h1, h2]
    · simp [subscript, find, h1, h2, strLess_irrefl]

theorem find_subscript_ne {key other : CppString} {m : StdMap} (hs : Sorted m)
    (hne : other ≠ key) : find other (subscript key m) = find other m := by
  induction m with
  | nil =>
    rcases strLess_cases key other with ⟨h1, h2⟩ | ⟨h0, h1, h2⟩ | ⟨h1, h2⟩
    · simp [subscript, find, h1]
    · exact absurd h0.symm hne
    · simp [subscript, find, h1, h2]
  | cons p rest ih =>
    obtain ⟨hp, hrest⟩ := sorted_cons.mp hs
    rcases strLess_cases p.1 key with ⟨h1, h2⟩ | ⟨h0, h1, h2⟩ | ⟨h1, h2⟩
    · simp only [subscript, h1, if_true, find]
      rw [ih hrest]
    · simp only [subscript, h1, h2]
      rfl
    · simp only [subscript, h1, h2, if_true, Bool.false_eq_true, if_false]
      rcases strLess_cases key other with ⟨h3, h4⟩ | ⟨h0, h3, h4⟩ | ⟨h3, h4⟩
      · simp [find, h3]
      · exact absurd h0.symm hne
      · have h5 : strLess other p.1 = true := strLess_trans h3 h1
        simp [find, h3, h4, h5, strLess_asymm h5]

theorem length_subscript (key : CppString) (m : StdMap) :
    (subscript key m).length = if (find key m).isSome then m.length else m.length + 1 := by
  induction m with
  | nil => simp [subscript, find]
  | cons p rest ih =>
    rcases strLess_cases p.1 key with ⟨h1, h2⟩ | ⟨h0, h1, h2⟩ | ⟨h1, h2⟩
    · simp only [subscript, find, h1, if_true, List.length_cons, ih]
      split_ifs <;> rfl
    · simp [subscript, find, h1, h2]
    · simp [subscript, find, h1, h2]

/-- When the key has an entry, `operator[]` changes nothing. -/
theorem subscript_of_find_some {key : CppString} {m : StdMap}
    (h : (find key m).isSome = true) : subscript key m = m := by
  induction m with
  | nil => simp [find] at h
  | cons p rest ih =>
    rcases strLess_cases p.1 key with ⟨h1, h2⟩ | ⟨h0, h1, h2⟩ | ⟨h1, h2⟩
    · simp only [find, h1, if_true] at h
      simp only [subscript, h1, if_true, ih h]
    · simp [subscript, h1, h2]
    · simp [find, h1, h2] at h

/-! ### Assignment to the mapped string -/

theorem mem_assign {key value : CppString} {m : StdMap} {q : Entry}
    (h : q ∈ assign key value m) : ∃ p ∈ m, p.1 = q.1 := by
  induction m with
  | nil => simp [assign] at h
  | cons p rest ih =>
    rcases strLess_cases p.1 key with ⟨h1, h2⟩ | ⟨h0, h1, h2⟩ | ⟨h1, h2⟩
    · simp only [assign, h1, if_true, List.mem_cons] at h
      rcases h with h | h
      · exact ⟨p, List.mem_cons_self _ _, by rw [h]⟩
      · obtain ⟨r, hr, hrq⟩ := ih h
        exact ⟨r, List.mem_cons_of_mem _ hr, hrq⟩
    · simp only [assign, h1, h2, Bool.false_eq_true, if_false, List.mem_cons] at h
      rcases h with h | h
      · exact ⟨p, List.mem_cons_self _ _, by rw [h]⟩
      · exact ⟨q, List.mem_cons_of_mem _ h, rfl⟩
    · simp only [assign, h1, h2, if_true, Bool.false_eq_true, if_false] at h
      exact ⟨q, h, rfl⟩

theorem sorted_assign {key value : CppString} {m : StdMap} (hs : Sorted m) :
    Sorted (assign key value m) := by
  induction m with
  | nil => simpa [assign] using hs
  | cons p rest ih =>
    obtain ⟨hp, hrest⟩ := sorted_cons.mp hs
    rcases strLess_cases p.1 key with ⟨h1, h2⟩ | ⟨h0, h1, h2⟩ | ⟨h1, h2⟩
    · simp only [assign, h1, if_true]
      refine sorted_cons.mpr ⟨?_, ih hrest⟩
      intro q hq
      obtain ⟨r, hr, hrq⟩ := mem_assign hq
      rw [← hrq]
      exact hp r hr
    · simp only [assign, h1, h2, Bool.false_eq_true, if_false]
      exact sorted_cons.mpr ⟨hp, hrest⟩
    · simp only [assign, h1, h2, if_true, Bool.false_eq_true, if_false]
      exact hs

theorem find_assign_self (key value : CppString) (m : StdMap) :
    find key (assign key value m) = (find key m).map (fun p => (p.1, value)) := by
  induction m with
  | nil => simp [assign, find]
  | cons p rest ih =>
    rcases strLess_cases p.1 key with ⟨h1, h2⟩ | ⟨h0, h1, h2⟩ | ⟨h1, h2⟩
    · simp only [assign, find, h1, if_true]
      exact ih
    · simp [assign, find, h1, h2]
    · simp [assign, find, h1, h2]

theorem find_assign_ne {key value other : CppString} (m : StdMap)
    (hne : other ≠ key) : find other (assign key value m) = find other m := by
  induction m with
  | nil => simp [assign]
  | cons p rest ih =>
    rcases strLess_cases p.1 key with ⟨h1, h2⟩ | ⟨h0, h1, h2⟩ | ⟨h1, h2⟩
    · simp only [assign, find, h1, if_true, ih]
    · simp only [assign, h1, h2, Bool.false_eq_true, if_false, find]
      rcases strLess_cases p.1 other with ⟨h3, h4⟩ | ⟨h5, h3, h4⟩ | ⟨h3, h4⟩
      · simp [h3]
      · exact absurd (h5.symm.trans h0) hne
      · simp [h3, h4]
    · simp only [assign, h1, h2, if_true, Bool.false_eq_true, if_false]

theorem length_assign (key value : CppString) (m : StdMap) :
    (assign key value m).length = m.length := by
  induction m with
  | nil => simp [assign]
  | cons p rest ih =>
    rcases strLess_cases p.1 key with ⟨h1, h2⟩ | ⟨h0, h1, h2⟩ | ⟨h1, h2⟩
    · simp [assign, h1, ih]
    · simp [assign, h1, h2]
    · simp [assign, h1, h2]

theorem keys_assign (key value : CppString) (m : StdMap) :
    keys (assign key value m) = keys m := by
  induction m with
  | nil => simp [assign]
  | cons p rest ih =>
    rcases strLess_cases p.1 key with ⟨h1, h2⟩ | ⟨h0, h1, h2⟩ | ⟨h1, h2⟩
    · simp only [assign, h1, if_true, keys, List.map_cons] at ih ⊢
      rw [ih]
    · simp [assign, h1, h2, keys]
    · simp [assign, h1, h2]

/-! ### `erase` -/

theorem mem_erase {key : CppString} {m : StdMap} {q : Entry}
    (h : q ∈ (erase key m).1) : q ∈ m := by
  induction m with
  | nil => simp [erase] at h
  | cons p rest ih =>
    rcases strLess_cases p.1 key with ⟨h1, h2⟩ | ⟨h0, h1, h2⟩ | ⟨h1, h2⟩
    · simp only [erase, h1, if_true, List.mem_cons] at h
      rcases h with h | h
      · exact List.mem_cons.mpr (Or.inl h)
      · exact List.mem_cons_of_mem _ (ih h)
    · simp only [erase, h1, h2, Bool.false_eq_true, if_false] at h
      exact List.mem_cons_of_mem _ h
    · simp only [erase, h1, h2, if_true, Bool.false_eq_true, if_false] at h
      exact h

theorem sorted_erase {key : CppString} {m : StdMap} (hs : Sorted m) :
    Sorted (erase key m).1 := by
  induction m with
  | nil => simpa [erase] using hs
  | cons p rest ih =>
    obtain ⟨hp, hrest⟩ := sorted_cons.mp hs
    rcases strLess_cases p.1 key with ⟨h1, h2⟩ | ⟨h0, h1, h2⟩ | ⟨h1, h2⟩
    · simp only [erase, h1, if_true]
      exact sorted_cons.mpr ⟨fun q hq => hp q (mem_erase hq), ih hrest⟩
    · simp only [erase, h1, h2, Bool.false_eq_true, if_false]
      exact hrest
    · simp only [erase, h1, h2, if_true, Bool.false_eq_true, if_false]
      exact hs

/-- The count `erase` returns is 1 when the key had an entry and 0 otherwise. -/
theorem erase_count (key : CppString) (m : StdMap) :
    (erase key m).2 = if (find key m).isSome then 1 else 0 := by
  induction m with
  | nil => simp [erase, find]
  | cons p rest ih =>
    rcases strLess_cases p.1 key with ⟨h1, h2⟩ | ⟨h0, h1, h2⟩ | ⟨h1, h2⟩
    · simp only [erase, find, h1, if_true]
      exact ih
    · simp [erase, find, h1, h2]
    · simp [erase, find, h1, h2]

/-- Erasing a key without an entry changes nothing. -/
theorem erase_of_find_none {key : CppString} {m : StdMap}
    (h : find key m = none) : (erase key m).1 = m := by
  induction m with
  | nil => simp [erase]
  | cons p rest ih =>
    rcases strLess_cases p.1 key with ⟨h1, h2⟩ | ⟨h0, h1, h2⟩ | ⟨h1, h2⟩
    · simp only [find, h1, if_true] at h
      simp only [erase, h1, if_true, ih h]
    · simp [find, h1, h2] at h
    · simp [erase, h1, h2]

theorem find_erase_self {key : CppString} {m : StdMap} (hs : Sorted m) :
    find key (erase key m).1 = none := by
  induction m with
  | nil => simp [erase, find]
  | cons p rest ih =>
    obtain ⟨hp, hrest⟩ := sorted_cons.mp hs
    rcases strLess_cases p.1 key with ⟨h1, h2⟩ | ⟨h0, h1, h2⟩ | ⟨h1, h2⟩
    · simp only [erase, find, h1, if_true]
      exact ih hrest
    · simp only [erase, h1, h2, Bool.false_eq_true, if_false]
      apply find_of_forall_lt
      intro q hq
      rw [← h0]
      exact hp q hq
    · simp [erase, find, h1, h2]

theorem find_erase_ne {key other : CppString} {m : StdMap} (hs : Sorted m)
    (hne : other ≠ key) : find other (erase key m).1 = find other m := by
  induction m with
  | nil => simp [erase]
  | cons p rest ih =>
    obtain ⟨hp, hrest⟩ := sorted_cons.mp hs
    rcases strLess_cases p.1 key with ⟨h1, h2⟩ | ⟨h0, h1, h2⟩ | ⟨h1, h2⟩
    · simp only [erase, find, h1, if_true, ih hrest]
    · simp only [erase, h1, h2, Bool.false_eq_true, if_false, find]
      rcases strLess_cases p.1 other with ⟨h3, h4⟩ | ⟨h5, h3, h4⟩ | ⟨h3, h4⟩
      · simp [h3]
      · exact absurd (h5.symm.trans h0) hne
      · simp only [h3, h4, if_true, Bool.false_eq_true, if_false]
        apply find_of_forall_lt
        intro q hq
        exact strLess_trans h3 (hp q hq)
    · simp only [erase, h1, h2, if_true, Bool.false_eq_true, if_false]

theorem length_erase (key : CppString) (m : StdMap) :
    (erase key m).1.length + (erase key m).2 = m.length := by
  induction m with
  | nil => simp [erase]
  | cons p rest ih =>
    rcases strLess_cases p.1 key with ⟨h1, h2⟩ | ⟨h0, h1, h2⟩ | ⟨h1, h2⟩
    · simp only [erase, h1, if_true, List.length_cons]
      omega
    · simp [erase, h1, h2]
    · simp [erase, h1, h2]

/-! ### Keys -/

/-- A sorted map lists no key twice. -/
theorem keys_nodup {m : StdMap} (hs : Sorted m) : (keys m).Nodup := by
  induction m with
  | nil => simp [keys]
  | cons p rest ih =>
    obtain ⟨hp, hrest⟩ := sorted_cons.mp hs
    simp only [keys, List.map_cons, List.nodup_cons]
    refine ⟨?_, ih hrest⟩
    intro hmem
    obtain ⟨q, hq, hqp⟩ := List.mem_map.mp hmem
    have := hp q hq
    rw [hqp, strLess_irrefl] at this
    exact absurd this (by decide)

end StdMap

/-! ## The member functions -/

namespace SimpleStorage

theorem wellFormed_new : SimpleStorage.new.WellFormed :=
  StdMap.sorted_nil

theorem wellFormed_set (a : Alloc) {s : SimpleStorage} (key value : CppString)
    (hs : s.WellFormed) : (s.set a key value).2.WellFormed := by
  unfold WellFormed at hs ⊢
  unfold SimpleStorage.set
  split_ifs
  · exact hs
  · exact StdMap.sorted_subscript hs
  · exact StdMap.sorted_assign (StdMap.sorted_subscript hs)

theorem wellFormed_remove {s : SimpleStorage} (key : CppString)
    (hs : s.WellFormed) : (s.remove key).2.WellFormed :=
  StdMap.sorted_erase hs

theorem wellFormed_clear (s : SimpleStorage) : s.clear.WellFormed :=
  StdMap.sorted_nil

/-- The entry `find` sees for another key is the same after `set`, whatever
the outcome of the call. -/
theorem find_set_ne (a : Alloc) {s : SimpleStorage} {key other : CppString}
    (value : CppString) (hs : s.WellFormed) (hne : other ≠ key) :
    StdMap.find other (s.set a key value).2.storage_ = StdMap.find other s.storage_ := by
  unfold SimpleStorage.set
  split_ifs
  · rfl
  · exact StdMap.find_subscript_ne hs hne
  · simp only [StdMap.find_assign_ne _ hne]
    exact StdMap.find_subscript_ne hs hne

/-- A call of `set` that returns true leaves the key mapped to the value. -/
theorem get_set_self (a : Alloc) (s : SimpleStorage) (key value : CppString)
    (h : (s.set a key value).1 = true) : (s.set a key value).2.get key = some value := by
  unfold SimpleStorage.set at h ⊢
  split_ifs at h ⊢
  simp [SimpleStorage.get, StdMap.find_assign_self, StdMap.find_subscript_self]

/-- Without resource exhaustion `set` returns true. -/
theorem set_ok_fst (s : SimpleStorage) (key value : CppString) :
    (s.set Alloc.ok key value).1 = true := by
  simp [SimpleStorage.set, Alloc.ok]

theorem has_iff_get (s : SimpleStorage) (key : CppString) :
    s.has key = true ↔ ∃ v, s.get key = some v := by
  unfold SimpleStorage.has SimpleStorage.get
  cases StdMap.find key s.storage_ <;> simp

theorem has_iff_mem_keys {s : SimpleStorage} (hs : s.WellFormed) (key : CppString) :
    s.has key = true ↔ key ∈ s.keys :=
  StdMap.isSome_find_iff hs

theorem get_eq_none_iff {s : SimpleStorage} (hs : s.WellFormed) (key : CppString) :
    s.get key = none ↔ key ∉ s.keys := by
  unfold SimpleStorage.keys
  rw [← StdMap.find_eq_none_iff hs]
  unfold SimpleStorage.get
  cases StdMap.find key s.storage_ <;> simp

end SimpleStorage

/-! ## Sequences of calls -/

theorem wellFormed_step {s : SimpleStorage} (op : Op) (hs : s.WellFormed) :
    (step s op).2.WellFormed := by
  cases op with
  | set a key value => exact SimpleStorage.wellFormed_set a key value hs
  | remove key => exact SimpleStorage.wellFormed_remove key hs
  | clear => exact SimpleStorage.wellFormed_clear s
  | get key => exact hs
  | has key => exact hs
  | size => exact hs
  | getAllKeys => exact hs

theorem wellFormed_run {s : SimpleStorage} (ops : List Op) (hs : s.WellFormed) :
    (run s ops).WellFormed := by
  induction ops generalizing s with
  | nil => exact hs
  | cons op ops ih => exact ih (wellFormed_step op hs)

/-- Every store a sequence of calls builds keeps its keys strictly ascending. -/
theorem wellFormed_of_reachable {s : SimpleStorage} (h : Reachable s) : s.WellFormed := by
  obtain ⟨ops, rfl⟩ := h
  exact wellFormed_run ops SimpleStorage.wellFormed_new

/-- A call that does not mutate `key` leaves what `find` sees for it. -/
theorem find_step_of_not_mutates {s : SimpleStorage} {key : CppString} (op : Op)
    (hs : s.WellFormed) (hop : op.mutates key = false) :
    StdMap.find key (step s op).2.storage_ = StdMap.find key s.storage_ := by
  cases op with
  | set a k v =>
    have hne : key ≠ k := by
      intro h
      simp [Op.mutates, h] at hop
    exact SimpleStorage.find_set_ne a v hs hne
  | remove k =>
    have hne : key ≠ k := by
      intro h
      simp [Op.mutates, h] at hop
    exact StdMap.find_erase_ne hs hne
  | clear => simp [Op.mutates] at hop
  | get k => rfl
  | has k => rfl
  | size => rfl
  | getAllKeys => rfl

theorem find_run_of_not_mutates {s : SimpleStorage} {key : CppString} (ops : List Op)
    (hs : s.WellFormed) (hops : ∀ op ∈ ops, op.mutates key = false) :
    StdMap.find key (run s ops).storage_ = StdMap.find key s.storage_ := by
  induction ops generalizing s with
  | nil => rfl
  | cons op ops ih =>
    have h1 := hops op (List.mem_cons_self _ _)
    have h2 : ∀ o ∈ ops, o.mutates key = false :=
      fun o ho => hops o (List.mem_cons_of_mem _ ho)
    simp only [run]
    rw [ih (wellFormed_step op hs) h2, find_step_of_not_mutates op hs h1]

/-! ## Every sorted map is the state of some object -/

theorem StdMap.subscript_append {key : CppString} {acc : StdMap}
    (h : ∀ q ∈ acc, strLess q.1 key = true) :
    StdMap.subscript key acc = acc ++ [(key, [])] := by
  induction acc with
  | nil => rfl
  | cons p rest ih =>
    have h1 := h p (List.mem_cons_self _ _)
    simp only [StdMap.subscript, h1, if_true, List.cons_append]
    rw [ih (fun q hq => h q (List.mem_cons_of_mem _ hq))]

theorem StdMap.assign_append {key value old : CppString} {acc : StdMap}
    (h : ∀ q ∈ acc, strLess q.1 key = true) :
    StdMap.assign key value (acc ++ [(key, old)]) = acc ++ [(key, value)] := by
  induction acc with
  | nil => simp [StdMap.assign, strLess_irrefl]
  | cons p rest ih =>
    have h1 := h p (List.mem_cons_self _ _)
    rw [List.cons_append, List.cons_append]
    simp only [StdMap.assign, h1, if_true]
    rw [ih (fun q hq => h q (List.mem_cons_of_mem _ hq))]

theorem run_buildOps (acc m : StdMap) (hs : StdMap.Sorted (acc ++ m)) :
    run ⟨acc⟩ (buildOps m) = ⟨acc ++ m⟩ := by
  induction m generalizing acc with
  | nil => simp [buildOps, run]
  | cons p rest ih =>
    have hlt : ∀ q ∈ acc, strLess q.1 p.1 = true := by
      intro q hq
      unfold StdMap.Sorted at hs
      exact (List.pairwise_append.mp hs).2.2 q hq p (List.mem_cons_self _ _)
    have hstep : (step ⟨acc⟩ (Op.set Alloc.ok p.1 p.2)).2 = ⟨acc ++ [p]⟩ := by
      simp [step, SimpleStorage.set, Alloc.ok, StdMap.subscript_append hlt,
        StdMap.assign_append hlt]
    have hs2 : StdMap.Sorted ((acc ++ [p]) ++ rest) := by
      simpa using hs
    have h := ih (acc ++ [p]) hs2
    simp only [buildOps, List.map_cons, run] at h ⊢
    rw [hstep, h]
    simp

/-- A store whose keys are strictly ascending is the state of an object after
some sequence of calls: the well-formed stores are exactly the reachable
ones. -/
theorem reachable_of_wellFormed {s : SimpleStorage} (hs : s.WellFormed) : Reachable s := by
  obtain ⟨m⟩ := s
  exact ⟨buildOps m, by simpa [SimpleStorage.new] using run_buildOps [] m (by simpa using hs)⟩

theorem reachable_iff_wellFormed (s : SimpleStorage) : Reachable s ↔ s.WellFormed :=
  ⟨wellFormed_of_reachable, reachable_of_wellFormed⟩

/-! ## Failing calls of `set` -/

/-- The calls of `set` that return true: the assignment does not throw, and
the node is created or was not needed. -/
theorem SimpleStorage.set_fst_iff (a : Alloc) (s : SimpleStorage) (key value : CppString) :
    (s.set a key value).1 = true ↔
      a.assign = true ∧ (a.node = true ∨ s.has key = true) := by
  obtain ⟨node, assign⟩ := a
  unfold SimpleStorage.set SimpleStorage.has
  cases node <;> cases assign <;> cases StdMap.find key s.storage_ <;> simp

/-- A failing `set` leaves the store as it was when the key had an entry, and
when the node for a new key could not be created. -/
theorem SimpleStorage.set_false_unchanged (a : Alloc) (s : SimpleStorage)
    (key value : CppString) (h : (s.set a key value).1 = false)
    (hcase : s.has key = true ∨ a.node = false) : (s.set a key value).2 = s := by
  obtain ⟨node, assign⟩ := a
  unfold SimpleStorage.set SimpleStorage.has at *
  cases hf : StdMap.find key s.storage_ with
  | none =>
    have hnode : node = false := by simpa [hf] using hcase
    subst hnode
    simp
  | some p =>
    have hsub : StdMap.subscript key s.storage_ = s.storage_ :=
      StdMap.subscript_of_find_some (by simp [hf])
    cases assign
    · simp [hsub]
    · simp [hf] at h

/-! ## Size and key enumeration -/

namespace SimpleStorage

theorem size_eq_length_keys (s : SimpleStorage) : s.size = s.keys.length := by
  simp [SimpleStorage.size, StdMap.size, SimpleStorage.keys, StdMap.keys]

/-- The size after a `set` that returned true. -/
theorem size_set_of_true (a : Alloc) (s : SimpleStorage) (key value : CppString)
    (h : (s.set a key value).1 = true) :
    (s.set a key value).2.size = if s.has key = true then s.size else s.size + 1 := by
  unfold SimpleStorage.set at h ⊢
  split_ifs at h ⊢ <;>
    simp_all [SimpleStorage.size, StdMap.size, SimpleStorage.has, StdMap.length_assign,
      StdMap.length_subscript]

/-- A `set` on a key that has an entry keeps the size, whatever it returns. -/
theorem size_set_of_has (a : Alloc) (s : SimpleStorage) (key value : CppString)
    (h : s.has key = true) : (s.set a key value).2.size = s.size := by
  unfold SimpleStorage.has at h
  unfold SimpleStorage.set
  split_ifs <;>
    simp_all [SimpleStorage.size, StdMap.size, StdMap.length_assign,
      StdMap.length_subscript]

theorem size_remove (s : SimpleStorage) (key : CppString) :
    (s.remove key).2.size + (if s.has key = true then 1 else 0) = s.size := by
  have h1 := StdMap.length_erase key s.storage_
  rw [StdMap.erase_count] at h1
  simpa [SimpleStorage.remove, SimpleStorage.size, StdMap.size, SimpleStorage.has] using h1

theorem getAllKeysLoop_not_first (m : List Entry) (oss : CppString) :
    getAllKeysLoop m (oss, false) =
      (oss ++ (m.map (fun p => comma ++ p.1)).flatten, false) := by
  induction m generalizing oss with
  | nil => simp [getAllKeysLoop]
  | cons p rest ih => simp [getAllKeysLoop, ih]

theorem intercalate_cons (sep k : CppString) (ks : List CppString) :
    List.intercalate sep (k :: ks) = k ++ (ks.map (fun x => sep ++ x)).flatten := by
  induction ks generalizing k with
  | nil => simp [List.intercalate]
  | cons x xs ih =>
    have h := ih x
    simp only [List.intercalate] at h ⊢
    simp only [List.intersperse_cons_cons, List.flatten_cons, h, List.map_cons,
      List.append_assoc]

/-- The string `getAllKeys` builds is the keys joined with the separator. -/
theorem getAllKeys_eq_intercalate (s : SimpleStorage) :
    s.getAllKeys = List.intercalate comma s.keys := by
  obtain ⟨m⟩ := s
  cases m with
  | nil => rfl
  | cons p rest =>
    simp only [SimpleStorage.getAllKeys, StdMap.empty, List.isEmpty_cons, Bool.false_eq_true,
      if_false, getAllKeysLoop, Bool.not_true, List.nil_append, getAllKeysLoop_not_first,
      SimpleStorage.keys, StdMap.keys, List.map_cons, intercalate_cons, List.map_map]
    rfl

theorem length_flatten_comma (ks : List CppString) :
    ((ks.map (fun x => comma ++ x)).flatten).length =
      (ks.map List.length).sum + ks.length := by
  induction ks with
  | nil => rfl
  | cons x xs ih =>
    simp only [List.map_cons, List.flatten_cons, List.length_append, List.sum_cons,
      List.length_cons]
    rw [ih]
    have hc : comma.length = 1 := rfl
    omega

theorem length_intercalate_comma (k : CppString) (ks : List CppString) :
    (List.intercalate comma (k :: ks)).length + 1 =
      ((k :: ks).map List.length).sum + (k :: ks).length := by
  rw [intercalate_cons, List.length_append, length_flatten_comma]
  simp only [List.map_cons, List.sum_cons, List.length_cons]
  omega

end SimpleStorage

/-! ## The contract -/

/-- C1 (round trip).  On every store, `set(k, v)` returns true when no
allocation fails; and whenever `set(k, v)` returns true, the next `get(k)`
returns `v`, and `get(k)` still returns `v` after any further sequence of
calls none of which is a `set` or `remove` on `k` or a `clear` (the later
calls may themselves succeed or fail). -/
theorem set_get_round_trip (s : SimpleStorage) (k v : CppString) (hs : s.WellFormed) :
    (s.set Alloc.ok k v).1 = true ∧
    ∀ a : Alloc, (s.set a k v).1 = true →
      (s.set a k v).2.get k = some v ∧
      ∀ ops : List Op, (∀ op ∈ ops, op.mutates k = false) →
        (run (s.set a k v).2 ops).get k = some v := by
  refine ⟨SimpleStorage.set_ok_fst s k v, ?_⟩
  intro a ha
  have hget := SimpleStorage.get_set_self a s k v ha
  refine ⟨hget, ?_⟩
  intro ops hops
  have hwf := SimpleStorage.wellFormed_set a k v hs
  have hfind := find_run_of_not_mutates ops hwf hops
  unfold SimpleStorage.get at hget ⊢
  rw [hfind]
  exact hget

/-- The round trip of `b ↦ 2` on the store `a ↦ 1`, followed by calls on other keys, one of them a failing `set`. -/
theorem set_get_round_trip_witness :
    storeA.WellFormed ∧
    (storeA.set Alloc.ok [98] [50]).1 = true ∧
    (storeA.set Alloc.ok [98] [50]).2.get [98] = some [50] ∧
    (∀ op ∈ [Op.set ⟨true, false⟩ [99] [51], Op.remove [97], Op.get [98],
        Op.has [100], Op.size, Op.getAllKeys, Op.set Alloc.ok [97] [52]],
      op.mutates [98] = false) ∧
    (run (storeA.set Alloc.ok [98] [50]).2
      [Op.set ⟨true, false⟩ [99] [51], Op.remove [97], Op.get [98],
        Op.has [100], Op.size, Op.getAllKeys, Op.set Alloc.ok [97] [52]]).get [98]
      = some [50] :=
  ⟨by decide,
   (set_get_round_trip storeA [98] [50] (by decide)).1,
   ((set_get_round_trip storeA [98] [50] (by decide)).2 Alloc.ok (by decide)).1,
   by decide,
   ((set_get_round_trip storeA [98] [50] (by decide)).2 Alloc.ok (by decide)).2 _
     (by decide)⟩

/-- C2 (remove).  `remove(k)` returns true exactly when `k` had an entry
before the call; after the call `get(k)` is the absent marker and `has(k)` is
false; and when `k` had no entry the call returns false and the store is the
store before the call. -/
theorem remove_contract (s : SimpleStorage) (k : CppString) (hs : s.WellFormed) :
    ((s.remove k).1 = true ↔ k ∈ s.keys) ∧
    (s.remove k).2.get k = none ∧
    (s.remove k).2.has k = false ∧
    (k ∉ s.keys → (s.remove k).1 = false ∧ (s.remove k).2 = s) := by
  have hcount := StdMap.erase_count k s.storage_
  have hself : StdMap.find k (StdMap.erase k s.storage_).1 = none :=
    StdMap.find_erase_self hs
  have hmem : (StdMap.find k s.storage_).isSome = true ↔ k ∈ StdMap.keys s.storage_ :=
    StdMap.isSome_find_iff hs
  refine ⟨?_, ?_, ?_, ?_⟩
  · unfold SimpleStorage.keys
    rw [← hmem]
    simp only [SimpleStorage.remove, hcount]
    cases (StdMap.find k s.storage_).isSome <;> simp
  · simp only [SimpleStorage.remove, SimpleStorage.get, hself]
  · simp only [SimpleStorage.remove, SimpleStorage.has, hself]
    rfl
  · intro hk
    have hnone : StdMap.find k s.storage_ = none := (StdMap.find_eq_none_iff hs).mpr hk
    constructor
    · simp [SimpleStorage.remove, hcount, hnone]
    · simp only [SimpleStorage.remove, StdMap.erase_of_find_none hnone]

/-- Removal of the present key `a` and of the absent key `c` on the store `a ↦ 1, b ↦ 2`. -/
theorem remove_contract_witness :
    storeAB.WellFormed ∧
    (((storeAB.remove [97]).1 = true ↔ [97] ∈ storeAB.keys) ∧
      (storeAB.remove [97]).2.get [97] = none ∧
      (storeAB.remove [97]).2.has [97] = false ∧
      ([97] ∉ storeAB.keys →
        (storeAB.remove [97]).1 = false ∧ (storeAB.remove [97]).2 = storeAB)) ∧
    [99] ∉ storeAB.keys ∧
    ((storeAB.remove [99]).1 = false ∧ (storeAB.remove [99]).2 = storeAB) :=
  ⟨by decide, remove_contract storeAB [97] (by decide), by decide,
   (remove_contract storeAB [99] (by decide)).2.2.2 (by decide)⟩

/-- C3 (failure atomicity of `set`), evaluated where it fails.  On the empty
store, `set("k", v)` with a 32-byte `v`: `operator[]` creates the node for
`"k"` with an empty mapped string, then the assignment of `v` throws.  The
call returns false, and the store is not the store before the call: `"k"`,
absent before, is now present with the empty string, `has("k")` is true and
`size()` is 1. -/
theorem set_failure_leaves_empty_entry :
    (SimpleStorage.new.set ⟨true, false⟩ [107] longValue).1 = false ∧
    (SimpleStorage.new.set ⟨true, false⟩ [107] longValue).2 ≠ SimpleStorage.new ∧
    SimpleStorage.new.get [107] = none ∧
    (SimpleStorage.new.set ⟨true, false⟩ [107] longValue).2.get [107] = some [] ∧
    (SimpleStorage.new.set ⟨true, false⟩ [107] longValue).2.has [107] = true ∧
    (SimpleStorage.new.set ⟨true, false⟩ [107] longValue).2.size = 1 := by
  decide

/-- C4 (frame).  For keys `k2 ≠ k`, `set(k, v)` (whatever it returns) and
`remove(k)` leave `k2` as it was: `get(k2)` and `has(k2)` return after the
call what they returned before it. -/
theorem set_remove_frame (s : SimpleStorage) (k k2 v : CppString) (a : Alloc)
    (hs : s.WellFormed) (hne : k2 ≠ k) :
    (s.set a k v).2.get k2 = s.get k2 ∧
    (s.set a k v).2.has k2 = s.has k2 ∧
    (s.remove k).2.get k2 = s.get k2 ∧
    (s.remove k).2.has k2 = s.has k2 := by
  have h1 := SimpleStorage.find_set_ne a v hs hne
  have h2 : StdMap.find k2 (s.remove k).2.storage_ = StdMap.find k2 s.storage_ :=
    StdMap.find_erase_ne hs hne
  unfold SimpleStorage.get SimpleStorage.has
  rw [h1, h2]
  exact ⟨rfl, rfl, rfl, rfl⟩

/-- The key `b` of the store `a ↦ 1, b ↦ 2` across `set` and `remove` on `a`. -/
theorem set_remove_frame_witness :
    storeAB.WellFormed ∧ ([98] : CppString) ≠ [97] ∧
    ((storeAB.set Alloc.ok [97] [51]).2.get [98] = storeAB.get [98] ∧
      (storeAB.set Alloc.ok [97] [51]).2.has [98] = storeAB.has [98] ∧
      (storeAB.remove [97]).2.get [98] = storeAB.get [98] ∧
      (storeAB.remove [97]).2.has [98] = storeAB.has [98]) :=
  ⟨by decide, by decide, set_remove_frame storeAB [97] [98] [51] Alloc.ok (by decide) (by decide)⟩

/-- C5 (absence).  `get(k)` returns the absent marker exactly when `k` has
no entry; on the empty store `get(k)` is absent for every `k`; and after
`set(k, "")` has returned true, `get(k)` returns the present empty string,
which is not the absent marker. -/
theorem get_absent_iff (s : SimpleStorage) (k : CppString) (hs : s.WellFormed) :
    (s.get k = none ↔ k ∉ s.keys) ∧
    SimpleStorage.new.get k = none ∧
    (s.set Alloc.ok k []).1 = true ∧
    (s.set Alloc.ok k []).2.get k = some [] ∧
    (s.set Alloc.ok k []).2.get k ≠ SimpleStorage.new.get k := by
  have h1 := SimpleStorage.get_set_self Alloc.ok s k [] (SimpleStorage.set_ok_fst s k [])
  refine ⟨SimpleStorage.get_eq_none_iff hs k, rfl, SimpleStorage.set_ok_fst s k [], h1, ?_⟩
  rw [h1]
  simp [SimpleStorage.get, SimpleStorage.new, StdMap.find]

/-- The key `k` on the empty store, before and after `set` with the empty string. -/
theorem get_absent_iff_witness :
    SimpleStorage.new.WellFormed ∧
    ((SimpleStorage.new.get [107] = none ↔ [107] ∉ SimpleStorage.new.keys) ∧
      SimpleStorage.new.get [107] = none ∧
      (SimpleStorage.new.set Alloc.ok [107] []).1 = true ∧
      (SimpleStorage.new.set Alloc.ok [107] []).2.get [107] = some [] ∧
      (SimpleStorage.new.set Alloc.ok [107] []).2.get [107] ≠ SimpleStorage.new.get [107]) :=
  ⟨by decide, get_absent_iff SimpleStorage.new [107] (by decide)⟩

/-- C6 (existence consistency).  In every store reachable from the empty
store by calls of the seven member functions, `has(k)` equals "`get(k)` is
present", for every key `k`. -/
theorem has_eq_get_present (s : SimpleStorage) (k : CppString) (hr : Reachable s) :
    s.has k = (s.get k).isSome ∧ (s.has k = true ↔ ∃ v, s.get k = some v) := by
  have _ := hr
  refine ⟨?_, SimpleStorage.has_iff_get s k⟩
  unfold SimpleStorage.has SimpleStorage.get
  cases StdMap.find k s.storage_ <;> rfl

/-- The key `b` in the store `a ↦ 1, b ↦ 2`, built by four calls. -/
theorem has_eq_get_present_witness :
    Reachable storeAB ∧
    (storeAB.has [98] = (storeAB.get [98]).isSome ∧
      (storeAB.has [98] = true ↔ ∃ v, storeAB.get [98] = some v)) :=
  ⟨⟨[Op.set Alloc.ok [98] [50], Op.has [98], Op.set Alloc.ok [97] [49], Op.getAllKeys], by decide⟩,
   has_eq_get_present storeAB [98]
     ⟨[Op.set Alloc.ok [98] [50], Op.has [98], Op.set Alloc.ok [97] [49], Op.getAllKeys],
      by decide⟩⟩

/-- C7 (count consistency).  In every store reachable from the empty store,
`size()` is the number of keys `k` for which `has(k)` holds.  A `set(k, v)`
that returns true raises the size by one when `k` had no entry and keeps it
when `k` had one; `remove(k)` lowers the size by one when `k` had an entry and
keeps it otherwise. -/
theorem size_counts_keys (s : SimpleStorage) (hr : Reachable s) :
    (∃ ks : Finset CppString, (∀ k, k ∈ ks ↔ s.has k = true) ∧ ks.card = s.size) ∧
    (∀ (a : Alloc) (k v : CppString), (s.set a k v).1 = true →
      (s.has k = false → (s.set a k v).2.size = s.size + 1) ∧
      (s.has k = true → (s.set a k v).2.size = s.size)) ∧
    (∀ k : CppString,
      (s.has k = true → (s.remove k).2.size + 1 = s.size) ∧
      (s.has k = false → (s.remove k).2.size = s.size)) := by
  have hs := wellFormed_of_reachable hr
  refine ⟨⟨s.keys.toFinset, ?_, ?_⟩, ?_, ?_⟩
  · intro k
    rw [List.mem_toFinset, SimpleStorage.has_iff_mem_keys hs]
  · rw [SimpleStorage.size_eq_length_keys]
    exact List.toFinset_card_of_nodup (StdMap.keys_nodup hs)
  · intro a k v h
    have h1 := SimpleStorage.size_set_of_true a s k v h
    constructor
    · intro hk
      simpa [hk] using h1
    · intro hk
      simpa [hk] using h1
  · intro k
    have h1 := SimpleStorage.size_remove s k
    constructor
    · intro hk
      simpa [hk] using h1
    · intro hk
      simpa [hk] using h1

/-- Sizes around `set` of the new key `c` and `remove` of the present key `a` on the store `a ↦ 1, b ↦ 2`. -/
theorem size_counts_keys_witness :
    Reachable storeAB ∧
    (storeAB.set Alloc.ok [99] [51]).1 = true ∧ storeAB.has [99] = false ∧
    (storeAB.set Alloc.ok [99] [51]).2.size = storeAB.size + 1 ∧
    storeAB.has [97] = true ∧ (storeAB.remove [97]).2.size + 1 = storeAB.size ∧
    ∃ ks : Finset CppString, (∀ k, k ∈ ks ↔ storeAB.has k = true) ∧ ks.card = storeAB.size :=
  ⟨⟨[Op.set Alloc.ok [97] [49], Op.set Alloc.ok [98] [50]], by decide⟩,
   by decide, by decide,
   ((size_counts_keys storeAB
      ⟨[Op.set Alloc.ok [97] [49], Op.set Alloc.ok [98] [50]], by decide⟩).2.1
      Alloc.ok [99] [51] (by decide)).1 (by decide),
   by decide,
   ((size_counts_keys storeAB
      ⟨[Op.set Alloc.ok [97] [49], Op.set Alloc.ok [98] [50]], by decide⟩).2.2 [97]).1
      (by decide),
   (size_counts_keys storeAB
      ⟨[Op.set Alloc.ok [97] [49], Op.set Alloc.ok [98] [50]], by decide⟩).1⟩

/-- C8 (getAllKeys).  The result is the keys in iteration order joined with
`","`, that is their intercalation: a separator between consecutive keys and
none before the first or after the last, so that a non-empty store of `n`
keys yields the bytes of the keys and `n - 1` separators.  The joined list
has no repetition, and a string is in it exactly when it is a key `k` with
`has(k)`.  The result is the empty string when the store is empty, and the
key itself when the store has one entry. -/
theorem getAllKeys_joins_keys (s : SimpleStorage) (hs : s.WellFormed) :
    s.getAllKeys = List.intercalate comma s.keys ∧
    s.keys.Nodup ∧
    (∀ k : CppString, k ∈ s.keys ↔ s.has k = true) ∧
    (0 < s.size → s.getAllKeys.length + 1 = (s.keys.map List.length).sum + s.size) ∧
    (s.size = 0 → s.getAllKeys = []) ∧
    (s.size = 1 → ∀ k : CppString, s.has k = true → s.getAllKeys = k) := by
  have hjoin := SimpleStorage.getAllKeys_eq_intercalate s
  refine ⟨hjoin, StdMap.keys_nodup hs,
    fun k => (SimpleStorage.has_iff_mem_keys hs k).symm, ?_, ?_, ?_⟩
  · intro hpos
    rw [hjoin, SimpleStorage.size_eq_length_keys] at *
    cases hkeys : s.keys with
    | nil => simp [hkeys] at hpos
    | cons k ks => exact SimpleStorage.length_intercalate_comma k ks
  · intro h0
    rw [SimpleStorage.size_eq_length_keys] at h0
    rw [hjoin, List.length_eq_zero.mp h0]
    rfl
  · intro h1 k hk
    rw [SimpleStorage.size_eq_length_keys] at h1
    obtain ⟨k1, hk1⟩ := List.length_eq_one.mp h1
    have hmem := (SimpleStorage.has_iff_mem_keys hs k).mp hk
    rw [hk1, List.mem_singleton] at hmem
    rw [hjoin, hk1, hmem]
    simp [List.intercalate]

/-- The stores `a ↦ 1, b ↦ 2` and `a ↦ 1`: the results are `a,b` and `a`. -/
theorem getAllKeys_joins_keys_witness :
    storeAB.WellFormed ∧
    storeAB.getAllKeys = [97, 44, 98] ∧
    storeAB.getAllKeys = List.intercalate comma storeAB.keys ∧
    storeAB.keys.Nodup ∧
    storeAB.getAllKeys.length + 1 = (storeAB.keys.map List.length).sum + storeAB.size ∧
    storeA.WellFormed ∧ storeA.size = 1 ∧ storeA.has [97] = true ∧
    storeA.getAllKeys = [97] :=
  ⟨by decide, by decide,
   (getAllKeys_joins_keys storeAB (by decide)).1,
   (getAllKeys_joins_keys storeAB (by decide)).2.1,
   (getAllKeys_joins_keys storeAB (by decide)).2.2.2.1 (by decide),
   by decide, by decide, by decide,
   (getAllKeys_joins_keys storeA (by decide)).2.2.2.2.2 (by decide) [97] (by decide)⟩

/-- C9 (clear).  From any state, after `clear()` the size is 0, `get(k)` is
absent and `has(k)` is false for every key, and `getAllKeys()` is the empty
string.  A second `clear()` leaves the size 0 and the same store as the
first, the freshly constructed one. -/
theorem clear_empties (s : SimpleStorage) :
    s.clear.size = 0 ∧
    (∀ k : CppString, s.clear.get k = none ∧ s.clear.has k = false) ∧
    s.clear.getAllKeys = [] ∧
    s.clear.clear.size = 0 ∧
    s.clear.clear = s.clear ∧
    s.clear = SimpleStorage.new :=
  ⟨rfl, fun _ => ⟨rfl, rfl⟩, rfl, rfl, rfl, rfl⟩

/-- C10 (remove twice).  When `k` has an entry, the first `remove(k)` returns
true, the second returns false, and the second leaves the store as the first
left it. -/
theorem remove_twice (s : SimpleStorage) (k : CppString) (hs : s.WellFormed)
    (hk : k ∈ s.keys) :
    (s.remove k).1 = true ∧
    ((s.remove k).2.remove k).1 = false ∧
    ((s.remove k).2.remove k).2 = (s.remove k).2 := by
  have hsome : (StdMap.find k s.storage_).isSome = true := (StdMap.isSome_find_iff hs).mpr hk
  have hnone : StdMap.find k (StdMap.erase k s.storage_).1 = none := StdMap.find_erase_self hs
  refine ⟨?_, ?_, ?_⟩
  · simp [SimpleStorage.remove, StdMap.erase_count, hsome]
  · simp [SimpleStorage.remove, StdMap.erase_count, hnone]
  · simp only [SimpleStorage.remove, StdMap.erase_of_find_none hnone]

/-- Two removals of `a` on the store `a ↦ 1, b ↦ 2`. -/
theorem remove_twice_witness :
    storeAB.WellFormed ∧ [97] ∈ storeAB.keys ∧
    ((storeAB.remove [97]).1 = true ∧
      ((storeAB.remove [97]).2.remove [97]).1 = false ∧
      ((storeAB.remove [97]).2.remove [97]).2 = (storeAB.remove [97]).2) :=
  ⟨by decide, by decide, remove_twice storeAB [97] (by decide) (by decide)⟩

/-! ## Further lemmas on the container and on sequences of calls -/

/-- In a sorted map the number of entries under a key is 1 when `find`
succeeds and 0 when it fails. -/
theorem StdMap.countP_key {m : StdMap} (hs : StdMap.Sorted m) (key : CppString) :
    m.countP (fun p => decide (p.1 = key)) =
      if (StdMap.find key m).isSome = true then 1 else 0 := by
  induction m with
  | nil => simp [StdMap.find]
  | cons p rest ih =>
    obtain ⟨hp, hrest⟩ := StdMap.sorted_cons.mp hs
    rcases strLess_cases p.1 key with ⟨h1, h2⟩ | ⟨h0, h1, h2⟩ | ⟨h1, h2⟩
    · have hne : p.1 ≠ key := by
        intro h
        rw [h, strLess_irrefl] at h1
        exact absurd h1 (by decide)
      simp only [List.countP_cons, ih hrest, StdMap.find, h1, if_true, hne, decide_False,
        Bool.false_eq_true, if_false, Nat.add_zero]
    · have hnone : StdMap.find key rest = none :=
        StdMap.find_of_forall_lt (fun q hq => by rw [← h0]; exact hp q hq)
      simp [List.countP_cons, ih hrest, StdMap.find, h1, h2, h0, hnone, strLess_irrefl]
    · have hne : p.1 ≠ key := by
        intro h
        rw [h, strLess_irrefl] at h1
        exact absurd h1 (by decide)
      have hnone : StdMap.find key rest = none :=
        StdMap.find_of_forall_lt (fun q hq => strLess_trans h1 (hp q hq))
      simp [List.countP_cons, ih hrest, StdMap.find, h1, h2, hne, hnone]

/-- A sequence of reading calls leaves the store as it was. -/
theorem run_of_isRead (s : SimpleStorage) (ops : List Op)
    (hops : ∀ op ∈ ops, op.isRead = true) : run s ops = s := by
  induction ops with
  | nil => rfl
  | cons op ops ih =>
    have h1 := hops op (List.mem_cons_self _ _)
    have h2 := ih (fun o ho => hops o (List.mem_cons_of_mem _ ho))
    cases op <;> simp [Op.isRead] at h1 <;> simpa [run, step] using h2

/-! ## The contract, continued -/

/-- C11 (scenario).  From the empty store: `set("a","1")` returns true,
`set("b","2")` returns true, `size()` is 2, `getAllKeys()` is `"a,b"` (one of
the two strings the scenario allows), `remove("a")` returns true, `get("a")`
is absent, `remove("a")` returns false, and after `clear()` the size is 0. -/
theorem scenario_step_by_step :
    results SimpleStorage.new scenario =
      [Ret.bool true, Ret.bool true, Ret.count 2, Ret.str [97, 44, 98], Ret.bool true,
       Ret.value none, Ret.bool false, Ret.void, Ret.count 0] ∧
    (SimpleStorage.new.set Alloc.ok [97] [49]).1 = true ∧
    (storeA.set Alloc.ok [98] [50]) = (true, storeAB) ∧
    storeAB.size = 2 ∧
    (storeAB.getAllKeys = [97, 44, 98] ∨ storeAB.getAllKeys = [98, 44, 97]) ∧
    (storeAB.remove [97]).1 = true ∧
    (storeAB.remove [97]).2.get [97] = none ∧
    ((storeAB.remove [97]).2.remove [97]).1 = false ∧
    ((storeAB.remove [97]).2.remove [97]).2.clear.size = 0 ∧
    (SimpleStorage.new.set Alloc.ok [97] [49]).2 = storeA := by
  refine ⟨by rfl, by decide, by decide, by decide, Or.inl (by decide), by decide, by decide,
    by decide, by decide, by decide⟩

/-- C12 (key uniqueness).  In every store reachable from the empty store no
key has more than one entry: the number of entries under a key `k` is 1 when
`has(k)` and 0 otherwise.  So the keys enumerated in iteration order, the ones
`getAllKeys` joins, have no repetition, and there are `size()` of them. -/
theorem keys_unique (s : SimpleStorage) (hr : Reachable s) :
    (∀ k : CppString,
      s.storage_.countP (fun p => decide (p.1 = k)) = if s.has k = true then 1 else 0) ∧
    s.keys.Nodup ∧
    (∀ k : CppString, k ∈ s.keys ↔ s.has k = true) ∧
    s.keys.length = s.size ∧
    s.getAllKeys = List.intercalate comma s.keys := by
  have hs := wellFormed_of_reachable hr
  exact ⟨fun k => StdMap.countP_key hs k, StdMap.keys_nodup hs,
    fun k => (SimpleStorage.has_iff_mem_keys hs k).symm,
    (SimpleStorage.size_eq_length_keys s).symm,
    SimpleStorage.getAllKeys_eq_intercalate s⟩

/-- The store `a ↦ 1, b ↦ 2`, built in the order `b`, `a`, `b`. -/
theorem keys_unique_witness :
    Reachable storeAB ∧
    storeAB.storage_.countP (fun p => decide (p.1 = [98])) = 1 ∧
    storeAB.keys.Nodup ∧
    storeAB.keys.length = storeAB.size :=
  ⟨⟨[Op.set Alloc.ok [98] [51], Op.set Alloc.ok [97] [49], Op.set Alloc.ok [98] [50]],
      by decide⟩,
   ((keys_unique storeAB
      ⟨[Op.set Alloc.ok [98] [51], Op.set Alloc.ok [97] [49], Op.set Alloc.ok [98] [50]],
        by decide⟩).1 [98]).trans (by decide),
   (keys_unique storeAB
      ⟨[Op.set Alloc.ok [98] [51], Op.set Alloc.ok [97] [49], Op.set Alloc.ok [98] [50]],
        by decide⟩).2.1,
   (keys_unique storeAB
      ⟨[Op.set Alloc.ok [98] [51], Op.set Alloc.ok [97] [49], Op.set Alloc.ok [98] [50]],
        by decide⟩).2.2.2.1⟩

/-- C13 (reads do not mutate).  `get(k)`, `has(k)`, `size()` and
`getAllKeys()` leave the store exactly as it was, and so does any sequence of
such calls; `get(k)` on a key without an entry creates none. -/
theorem reads_do_not_mutate (s : SimpleStorage) (k : CppString) (ops : List Op)
    (hops : ∀ op ∈ ops, op.isRead = true) :
    (step s (Op.get k)).2 = s ∧
    (step s (Op.has k)).2 = s ∧
    (step s Op.size).2 = s ∧
    (step s Op.getAllKeys).2 = s ∧
    run s ops = s ∧
    (s.has k = false →
      (step s (Op.get k)).2.has k = false ∧ (step s (Op.get k)).2.size = s.size) :=
  ⟨rfl, rfl, rfl, rfl, run_of_isRead s ops hops, fun h => ⟨h, rfl⟩⟩

/-- Reads on the store `a ↦ 1`, among them `get` of the absent key `c`. -/
theorem reads_do_not_mutate_witness :
    (∀ op ∈ [Op.get [99], Op.has [97], Op.size, Op.getAllKeys, Op.get [97]],
      op.isRead = true) ∧
    run storeA [Op.get [99], Op.has [97], Op.size, Op.getAllKeys, Op.get [97]] = storeA ∧
    (step storeA (Op.get [99])).2 = storeA ∧
    storeA.has [99] = false ∧
    (step storeA (Op.get [99])).2.has [99] = false :=
  ⟨by decide,
   (reads_do_not_mutate storeA [99] _ (by decide)).2.2.2.2.1,
   (reads_do_not_mutate storeA [99] [] (by decide)).1,
   by decide,
   ((reads_do_not_mutate storeA [99] [] (by decide)).2.2.2.2.2 (by decide)).1⟩

/-- The body of `set` returns the flag and leaves the store of
`SimpleStorage.set`: what `storage_[key] = value` throws is caught. -/
theorem setBody_eq (a : Alloc) (key value : CppString) (s : SimpleStorage) :
    setBody a key value s = (Except.ok (s.set a key value).1, (s.set a key value).2) := by
  obtain ⟨node, assign⟩ := a
  unfold setBody assignSubscript SimpleStorage.set
  cases node <;> cases assign <;> cases StdMap.find key s.storage_ <;>
    simp [Exn.isStdException]

/-- The body of `get` returns what `SimpleStorage.get` returns: `end()` is
never dereferenced. -/
theorem getBody_eq (key : CppString) (s : SimpleStorage) :
    getBody key s = (Except.ok (s.get key), s) := by
  unfold getBody SimpleStorage.get StdMap.deref
  cases StdMap.find key s.storage_ <;> simp

/-- With the mutex free, a member function returns what its body returns and
leaves the mutex free. -/
theorem Object.withLock_free {α : Type} (s : SimpleStorage)
    (body : SimpleStorage → Except Exn α × SimpleStorage) :
    Object.withLock ⟨s, false⟩ body = ((body s).1, ⟨(body s).2, false⟩) := by
  simp [Object.withLock, Object.lock, Object.unlock]

/-- With the mutex held, a call fails in the constructor of its guard. -/
theorem Object.call_held (s : SimpleStorage) (op : Op) :
    (Object.call ⟨s, true⟩ op).1 = Except.error Exn.relock := by
  cases op <;>
    simp [Object.call, Object.set, Object.get, Object.remove, Object.has, Object.clear,
      Object.size, Object.getAllKeys, Object.withLock, Object.lock, Except.map]

/-- Dereferencing `end()` fails. -/
theorem StdMap.deref_end : StdMap.deref none = Except.error Exn.derefEnd := rfl

/-- A call on an object whose mutex is free returns, raising nothing, what
`step` gives, and leaves the mutex free. -/
theorem Object.call_free (s : SimpleStorage) (op : Op) :
    Object.call ⟨s, false⟩ op = (Except.ok (step s op).1, ⟨(step s op).2, false⟩) := by
  cases op <;>
    simp [Object.call, Object.set, Object.get, Object.remove, Object.has, Object.clear,
      Object.size, Object.getAllKeys, Object.withLock_free, setBody_eq, getBody_eq, step,
      Except.map]

/-- So does every sequence of calls. -/
theorem Object.callAll_free (s : SimpleStorage) (ops : List Op) :
    Object.callAll ⟨s, false⟩ ops = (Except.ok (results s ops), ⟨run s ops, false⟩) := by
  induction ops generalizing s with
  | nil => rfl
  | cons op ops ih =>
    simp only [Object.callAll, Object.call_free, ih, results, run, Except.map]

/-- C14 (totality).  On an object in any state (any store, the mutex free as
it is between calls), each of the seven calls, for every key and value,
returns normally: the guard finds the mutex free and frees it again, `get`
does not dereference `end()`, and what `storage_[key] = value` throws is
caught inside `set`, whatever the allocations do.  So every sequence of calls
on a constructed object returns normally.  Resource exhaustion aside, `set`
returns true; it returns false only when an allocation fails.  The empty
key, the empty value, absent keys and the empty store are no exception. -/
theorem operations_total (s : SimpleStorage) (k v : CppString) (a : Alloc) :
    (∀ op : Op,
      Object.call ⟨s, false⟩ op = (Except.ok (step s op).1, ⟨(step s op).2, false⟩)) ∧
    (∀ ops : List Op,
      Object.callAll Object.new ops =
        (Except.ok (results SimpleStorage.new ops), ⟨run SimpleStorage.new ops, false⟩)) ∧
    Object.set a ⟨s, false⟩ k v = (Except.ok (s.set a k v).1, ⟨(s.set a k v).2, false⟩) ∧
    Object.get ⟨s, false⟩ k = (Except.ok (s.get k), ⟨s, false⟩) ∧
    (s.set Alloc.ok k v).1 = true ∧
    ((s.set a k v).1 = false → a.node = false ∨ a.assign = false) ∧
    (s.set Alloc.ok [] v).1 = true ∧
    (s.set Alloc.ok [] v).2.get [] = some v ∧
    (s.set Alloc.ok k []).2.get k = some [] ∧
    SimpleStorage.new.get k = none ∧
    (SimpleStorage.new.remove k).1 = false ∧
    SimpleStorage.new.getAllKeys = [] := by
  refine ⟨Object.call_free s, Object.callAll_free SimpleStorage.new, ?_, ?_,
    SimpleStorage.set_ok_fst s k v, ?_, SimpleStorage.set_ok_fst s [] v,
    SimpleStorage.get_set_self _ s [] v (SimpleStorage.set_ok_fst s [] v),
    SimpleStorage.get_set_self _ s k [] (SimpleStorage.set_ok_fst s k []), rfl, rfl, rfl⟩
  · simp only [Object.set, Object.withLock_free, setBody_eq]
  · simp only [Object.get, Object.withLock_free, getBody_eq]
  · intro hfalse
    by_contra hcon
    have hn : a.node = true := by
      cases h : a.node
      · exact absurd (Or.inl h) hcon
      · rfl
    have ha : a.assign = true := by
      cases h : a.assign
      · exact absurd (Or.inr h) hcon
      · rfl
    have htrue := (SimpleStorage.set_fst_iff a s k v).mpr ⟨ha, Or.inl hn⟩
    rw [hfalse] at htrue
    exact absurd htrue (by decide)

/-- On the store `a ↦ 1`: a `set` whose node for the new key `c` cannot be
created returns false and raises nothing, and `get` of the absent key `c`
returns the absent marker and raises nothing. -/
theorem operations_total_witness :
    (storeA.set ⟨false, true⟩ [99] [51]).1 = false ∧
    ((⟨false, true⟩ : Alloc).node = false ∨ (⟨false, true⟩ : Alloc).assign = false) ∧
    Object.call ⟨storeA, false⟩ (Op.set ⟨false, true⟩ [99] [51]) =
      (Except.ok (Ret.bool false), ⟨storeA, false⟩) ∧
    Object.call ⟨storeA, false⟩ (Op.get [99]) =
      (Except.ok (Ret.value none), ⟨storeA, false⟩) :=
  ⟨by decide,
   (operations_total storeA [99] [51] ⟨false, true⟩).2.2.2.2.2.1 (by decide),
   (operations_total storeA [99] [51] ⟨false, true⟩).1 (Op.set ⟨false, true⟩ [99] [51]),
   (operations_total storeA [99] [51] ⟨false, true⟩).1 (Op.get [99])⟩

/-! ## Sorted maps are determined by what `find` returns -/

/-- Two sorted lists of strings with the same members are the same list. -/
theorem sorted_strings_ext {l₁ l₂ : List CppString}
    (h₁ : l₁.Pairwise (fun a b => strLess a b = true))
    (h₂ : l₂.Pairwise (fun a b => strLess a b = true))
    (hmem : ∀ k, k ∈ l₁ ↔ k ∈ l₂) : l₁ = l₂ := by
  have hirr : ∀ a : CppString, ¬ strLess a a = true := by
    intro a h
    rw [strLess_irrefl] at h
    exact absurd h (by decide)
  have hne : ∀ {a b : CppString}, strLess a b = true → a ≠ b := by
    intro a b hab heq
    rw [heq] at hab
    exact hirr b hab
  have hn₁ : l₁.Nodup := List.Pairwise.imp hne h₁
  have hn₂ : l₂.Nodup := List.Pairwise.imp hne h₂
  have hperm : l₁.Perm l₂ := (List.perm_ext_iff_of_nodup hn₁ hn₂).mpr hmem
  haveI : IsAntisymm CppString (fun a b => strLess a b = true) :=
    ⟨fun a b hab hba => by
      rw [strLess_asymm hab] at hba
      exact absurd hba (by decide)⟩
  exact List.eq_of_perm_of_sorted hperm h₁ h₂

theorem StdMap.keys_sorted {m : StdMap} (hs : StdMap.Sorted m) :
    (StdMap.keys m).Pairwise (fun a b => strLess a b = true) := by
  unfold StdMap.keys
  exact List.pairwise_map.mpr hs

/-- Two sorted maps in which `find` returns the same for every key are the
same map. -/
theorem StdMap.map_ext_of_find {m₁ m₂ : StdMap} (h₁ : StdMap.Sorted m₁) (h₂ : StdMap.Sorted m₂)
    (hfind : ∀ k, StdMap.find k m₁ = StdMap.find k m₂) : m₁ = m₂ := by
  have hmem : ∀ p : Entry, p ∈ m₁ ↔ p ∈ m₂ := by
    intro p
    have e₁ : StdMap.find p.1 m₁ = some p ↔ p ∈ m₁ ∧ p.1 = p.1 :=
      StdMap.find_eq_some_iff h₁ p
    have e₂ : StdMap.find p.1 m₂ = some p ↔ p ∈ m₂ ∧ p.1 = p.1 :=
      StdMap.find_eq_some_iff h₂ p
    rw [hfind p.1] at e₁
    constructor
    · intro hp
      exact (e₂.mp (e₁.mpr ⟨hp, rfl⟩)).1
    · intro hp
      exact (e₁.mp (e₂.mpr ⟨hp, rfl⟩)).1
  have hn₁ : m₁.Nodup := List.Nodup.of_map _ (StdMap.keys_nodup h₁)
  have hn₂ : m₂.Nodup := List.Nodup.of_map _ (StdMap.keys_nodup h₂)
  have hperm : m₁.Perm m₂ := (List.perm_ext_iff_of_nodup hn₁ hn₂).mpr hmem
  haveI : IsAntisymm Entry (fun p q => strLess p.1 q.1 = true) :=
    ⟨fun p q hpq hqp => by
      rw [strLess_asymm hpq] at hqp
      exact absurd hqp (by decide)⟩
  exact List.eq_of_perm_of_sorted hperm h₁ h₂

theorem SimpleStorage.store_ext_of_find {s t : SimpleStorage} (hs : s.WellFormed)
    (ht : t.WellFormed)
    (hfind : ∀ k, StdMap.find k s.storage_ = StdMap.find k t.storage_) : s = t := by
  obtain ⟨m⟩ := s
  obtain ⟨n⟩ := t
  exact congrArg SimpleStorage.mk (StdMap.map_ext_of_find hs ht hfind)

/-! ## `set` as a function of the entry of its key -/

/-- What `set` returns, and the entry of its key afterwards, depend on the
store only through the entry the key had. -/
theorem SimpleStorage.set_congr_find (a : Alloc) {s t : SimpleStorage}
    (key value : CppString)
    (h : StdMap.find key s.storage_ = StdMap.find key t.storage_) :
    (s.set a key value).1 = (t.set a key value).1 ∧
    StdMap.find key (s.set a key value).2.storage_ =
      StdMap.find key (t.set a key value).2.storage_ := by
  unfold SimpleStorage.set
  rw [h]
  split_ifs
  · exact ⟨rfl, h⟩
  · refine ⟨rfl, ?_⟩
    simp only [StdMap.find_subscript_self, h]
  · refine ⟨rfl, ?_⟩
    simp only [StdMap.find_assign_self, StdMap.find_subscript_self, h]

/-- After a `set` without resource exhaustion the key has the entry
`(key, value)`. -/
theorem SimpleStorage.find_set_ok_self (s : SimpleStorage) (key value : CppString) :
    StdMap.find key (s.set Alloc.ok key value).2.storage_ = some (key, value) := by
  simp only [SimpleStorage.set, Alloc.ok, Bool.not_true, Bool.and_false, Bool.false_eq_true,
    if_false, StdMap.find_assign_self, StdMap.find_subscript_self, Option.map_some']
  cases hf : StdMap.find key s.storage_ with
  | none => rfl
  | some q =>
    have := StdMap.find_key hf
    simp [this]

/-- A `set` that returns true did what the call without resource exhaustion
does. -/
theorem SimpleStorage.set_eq_ok_of_true (a : Alloc) (s : SimpleStorage)
    (key value : CppString) (h : (s.set a key value).1 = true) :
    s.set a key value = s.set Alloc.ok key value := by
  obtain ⟨node, assign⟩ := a
  unfold SimpleStorage.set Alloc.ok at *
  cases node <;> cases assign <;> cases hf : StdMap.find key s.storage_ <;> simp_all

theorem StdMap.assign_assign (key v₁ v₂ : CppString) (m : StdMap) :
    StdMap.assign key v₂ (StdMap.assign key v₁ m) = StdMap.assign key v₂ m := by
  induction m with
  | nil => rfl
  | cons p rest ih =>
    rcases strLess_cases p.1 key with ⟨h1, h2⟩ | ⟨h0, h1, h2⟩ | ⟨h1, h2⟩
    · simp only [StdMap.assign, h1, if_true, ih]
    · simp [StdMap.assign, h1, h2]
    · simp [StdMap.assign, h1, h2]

/-! ## Building a store by a sequence of `set` -/

theorem buildOps_not_mutates {kvs : List Entry} {key : CppString}
    (h : key ∉ kvs.map Prod.fst) : ∀ op ∈ buildOps kvs, op.mutates key = false := by
  intro op hop
  obtain ⟨p, hp, rfl⟩ := List.mem_map.mp hop
  have hne : p.1 ≠ key := fun heq => h (List.mem_map.mpr ⟨p, hp, heq⟩)
  simp [Op.mutates, hne]

/-- After the calls `set(k_i, v_i)` with distinct keys, every `k_i` has the
entry `(k_i, v_i)`. -/
theorem find_run_buildOps {s : SimpleStorage} (hs : s.WellFormed) (kvs : List Entry)
    (hnd : (kvs.map Prod.fst).Nodup) (p : Entry) (hp : p ∈ kvs) :
    StdMap.find p.1 (run s (buildOps kvs)).storage_ = some p := by
  induction kvs generalizing s with
  | nil => simp at hp
  | cons q rest ih =>
    obtain ⟨hq, hrest⟩ := List.nodup_cons.mp hnd
    have hs1 := SimpleStorage.wellFormed_set Alloc.ok q.1 q.2 hs
    simp only [buildOps, List.map_cons, run, step]
    rcases List.mem_cons.mp hp with hpq | hpr
    · subst hpq
      have h1 := find_run_of_not_mutates (buildOps rest) hs1 (buildOps_not_mutates hq)
      simp only [buildOps] at h1
      rw [h1, SimpleStorage.find_set_ok_self]
    · exact ih hs1 hrest hpr

theorem size_run_buildOps {s : SimpleStorage} (hs : s.WellFormed) (kvs : List Entry)
    (hnd : (kvs.map Prod.fst).Nodup) (hnew : ∀ p ∈ kvs, s.has p.1 = false) :
    (run s (buildOps kvs)).size = s.size + kvs.length := by
  induction kvs generalizing s with
  | nil => rfl
  | cons q rest ih =>
    obtain ⟨hq, hrest⟩ := List.nodup_cons.mp hnd
    have hs1 := SimpleStorage.wellFormed_set Alloc.ok q.1 q.2 hs
    have hsize := SimpleStorage.size_set_of_true Alloc.ok s q.1 q.2
      (SimpleStorage.set_ok_fst s q.1 q.2)
    rw [hnew q (List.mem_cons_self _ _)] at hsize
    have hnew1 : ∀ p ∈ rest, (s.set Alloc.ok q.1 q.2).2.has p.1 = false := by
      intro p hp
      have hne : p.1 ≠ q.1 := fun heq => hq (List.mem_map.mpr ⟨p, hp, heq⟩)
      have := SimpleStorage.find_set_ne Alloc.ok q.2 hs hne
      unfold SimpleStorage.has
      rw [this]
      exact hnew p (List.mem_cons_of_mem _ hp)
    have h := ih hs1 hrest hnew1
    simp only [buildOps, List.map_cons, run, step, List.length_cons] at h ⊢
    rw [h, hsize]
    simp
    omega

/-- The store built by `set(k_i, v_i)` with distinct keys does not depend on
the order of the calls. -/
theorem run_buildOps_perm {s : SimpleStorage} (hs : s.WellFormed) {kvs kvs2 : List Entry}
    (hnd : (kvs.map Prod.fst).Nodup) (hperm : kvs2.Perm kvs) :
    run s (buildOps kvs2) = run s (buildOps kvs) := by
  have hnd2 : (kvs2.map Prod.fst).Nodup := ((hperm.map Prod.fst).nodup_iff).mpr hnd
  apply SimpleStorage.store_ext_of_find (wellFormed_run _ hs) (wellFormed_run _ hs)
  intro k
  by_cases hk : k ∈ kvs.map Prod.fst
  · obtain ⟨p, hp, rfl⟩ := List.mem_map.mp hk
    rw [find_run_buildOps hs kvs hnd p hp,
      find_run_buildOps hs kvs2 hnd2 p (hperm.mem_iff.mpr hp)]
  · have hk2 : k ∉ kvs2.map Prod.fst := fun h => hk ((hperm.map Prod.fst).mem_iff.mp h)
    rw [find_run_of_not_mutates _ hs (buildOps_not_mutates hk),
      find_run_of_not_mutates _ hs (buildOps_not_mutates hk2)]

/-! ## The comparator is the lexicographic order -/

theorem strLess_iff_lex (a b : CppString) :
    strLess a b = true ↔ List.Lex (fun x y : Byte => x < y) a b := by
  induction a generalizing b with
  | nil =>
    cases b with
    | nil => simp [strLess]
    | cons y ys => simp [strLess, List.Lex.nil]
  | cons x xs ih =>
    cases b with
    | nil => simp [strLess]
    | cons y ys =>
      simp only [strLess]
      constructor
      · intro h
        split_ifs at h with h1 h2
        · exact List.Lex.rel h1
        · have hxy : x = y := le_antisymm (not_lt.mp h2) (not_lt.mp h1)
          subst hxy
          exact List.Lex.cons ((ih ys).mp h)
      · intro h
        cases h with
        | cons hrest =>
          simp only [lt_self_iff_false, if_false]
          exact (ih ys).mpr hrest
        | rel hlt => simp [hlt]

/-- Well-formed stores with the same keys present list them in the same
order. -/
theorem SimpleStorage.keys_eq_of_has_eq {s t : SimpleStorage} (hs : s.WellFormed)
    (ht : t.WellFormed) (h : ∀ k, s.has k = t.has k) : s.keys = t.keys := by
  apply sorted_strings_ext (StdMap.keys_sorted hs) (StdMap.keys_sorted ht)
  intro k
  have e1 := SimpleStorage.has_iff_mem_keys hs k
  have e2 := SimpleStorage.has_iff_mem_keys ht k
  unfold SimpleStorage.keys at e1 e2
  rw [← e1, ← e2, h k]

/-- A second `set` on the same key, without resource exhaustion in either
call, leaves the store the second call alone would leave. -/
theorem SimpleStorage.set_ok_set_ok (s : SimpleStorage) (k v₁ v₂ : CppString) :
    (s.set Alloc.ok k v₁).2.set Alloc.ok k v₂ = s.set Alloc.ok k v₂ := by
  have hsome : (StdMap.find k (StdMap.assign k v₁ (StdMap.subscript k s.storage_))).isSome
      = true := by
    simp [StdMap.find_assign_self, StdMap.find_subscript_self]
  simp only [SimpleStorage.set, Alloc.ok, Bool.not_true, Bool.and_false, Bool.false_eq_true,
    if_false, StdMap.subscript_of_find_some hsome, StdMap.assign_assign]

/-! ## Splitting the joined keys -/

/-- Splitting the join of a non-empty list of separator-free strings at the
separator gives the list back. -/
theorem splitOn_intercalate_comma {ks : List CppString} (hne : ks ≠ [])
    (hsep : ∀ k ∈ ks, noSeparator k) :
    List.splitOn (44 : Byte) (List.intercalate comma ks) = ks := by
  have h : ∀ l ∈ ks, (44 : Byte) ∉ l := by
    intro l hl
    exact hsep l hl 44 (by simp [comma])
  exact List.splitOn_intercalate ks 44 h hne

/-- A non-empty list of separator-free strings whose join is empty is the
list of the empty string alone. -/
theorem eq_singleton_nil_of_intercalate_eq_nil {ks : List CppString} (hne : ks ≠ [])
    (hsep : ∀ k ∈ ks, noSeparator k) (h : List.intercalate comma ks = []) :
    ks = [[]] := by
  have hsplit := splitOn_intercalate_comma hne hsep
  rw [h] at hsplit
  rw [← hsplit]
  rfl

/-! ## The behaviour the code adds to the contract -/

/-- C16 (order of `set` on distinct keys).  For keys `k1 ≠ k2`, `set(k1, v1)`
then `set(k2, v2)` leaves the same store as `set(k2, v2)` then `set(k1, v1)`,
each call returning the same in both orders (also when calls fail).  Hence
the calls `set(k_i, v_i)` of a list of `N` entries with pairwise distinct
keys, applied to the empty store in any permutation, build one and the same
store, of size `N`, in which `get(k_i)` is `v_i`. -/
theorem set_order_independent (s : SimpleStorage) (k1 k2 v1 v2 : CppString) (a1 a2 : Alloc)
    (hs : s.WellFormed) (hne : k1 ≠ k2) :
    ((s.set a1 k1 v1).2.set a2 k2 v2).2 = ((s.set a2 k2 v2).2.set a1 k1 v1).2 ∧
    ((s.set a1 k1 v1).2.set a2 k2 v2).1 = (s.set a2 k2 v2).1 ∧
    ((s.set a2 k2 v2).2.set a1 k1 v1).1 = (s.set a1 k1 v1).1 ∧
    ∀ kvs kvs2 : List Entry, (kvs.map Prod.fst).Nodup → kvs2.Perm kvs →
      run SimpleStorage.new (buildOps kvs2) = run SimpleStorage.new (buildOps kvs) ∧
      (run SimpleStorage.new (buildOps kvs)).size = kvs.length ∧
      ∀ p ∈ kvs, (run SimpleStorage.new (buildOps kvs)).get p.1 = some p.2 := by
  have hs1 := SimpleStorage.wellFormed_set a1 k1 v1 hs
  have hs2 := SimpleStorage.wellFormed_set a2 k2 v2 hs
  have f12 : StdMap.find k2 (s.set a1 k1 v1).2.storage_ = StdMap.find k2 s.storage_ :=
    SimpleStorage.find_set_ne a1 v1 hs (Ne.symm hne)
  have f21 : StdMap.find k1 (s.set a2 k2 v2).2.storage_ = StdMap.find k1 s.storage_ :=
    SimpleStorage.find_set_ne a2 v2 hs hne
  have c2 := SimpleStorage.set_congr_find a2 k2 v2 f12
  have c1 := SimpleStorage.set_congr_find a1 k1 v1 f21
  refine ⟨?_, c2.1, c1.1, ?_⟩
  · apply SimpleStorage.store_ext_of_find (SimpleStorage.wellFormed_set a2 k2 v2 hs1)
      (SimpleStorage.wellFormed_set a1 k1 v1 hs2)
    intro k
    by_cases hk1 : k = k1
    · subst hk1
      rw [SimpleStorage.find_set_ne a2 v2 hs1 hne, c1.2]
    · by_cases hk2 : k = k2
      · subst hk2
        rw [SimpleStorage.find_set_ne a1 v1 hs2 hk1, c2.2]
      · rw [SimpleStorage.find_set_ne a2 v2 hs1 hk2, SimpleStorage.find_set_ne a1 v1 hs hk1,
          SimpleStorage.find_set_ne a1 v1 hs2 hk1, SimpleStorage.find_set_ne a2 v2 hs hk2]
  · intro kvs kvs2 hnd hperm
    refine ⟨run_buildOps_perm SimpleStorage.wellFormed_new hnd hperm, ?_, ?_⟩
    · have h := size_run_buildOps SimpleStorage.wellFormed_new kvs hnd (fun _ _ => rfl)
      rw [h]
      simp [SimpleStorage.size, SimpleStorage.new, StdMap.size]
    · intro p hp
      have h := find_run_buildOps SimpleStorage.wellFormed_new kvs hnd p hp
      simp only [SimpleStorage.get, h]

/-- The sets of `a` and `b` on the store `c ↦ 3` in both orders, one of them
failing, and the three entries `a`, `b`, `c` set on the empty store in two
orders. -/
theorem set_order_independent_witness :
    (⟨[([99], [51])]⟩ : SimpleStorage).WellFormed ∧ ([97] : CppString) ≠ [98] ∧
    (((⟨[([99], [51])]⟩ : SimpleStorage).set Alloc.ok [97] [49]).2.set
        ⟨true, false⟩ [98] [50]).2 =
      (((⟨[([99], [51])]⟩ : SimpleStorage).set ⟨true, false⟩ [98] [50]).2.set
        Alloc.ok [97] [49]).2 ∧
    (List.map Prod.fst [(([97], [49]) : Entry), ([98], [50]), ([99], [51])]).Nodup ∧
    List.Perm [(([99], [51]) : Entry), ([97], [49]), ([98], [50])]
      [([97], [49]), ([98], [50]), ([99], [51])] ∧
    run SimpleStorage.new (buildOps [([99], [51]), ([97], [49]), ([98], [50])]) =
      run SimpleStorage.new (buildOps [([97], [49]), ([98], [50]), ([99], [51])]) ∧
    (run SimpleStorage.new (buildOps [([97], [49]), ([98], [50]), ([99], [51])])).size = 3 :=
  ⟨by decide, by decide,
   (set_order_independent ⟨[([99], [51])]⟩ [97] [98] [49] [50] Alloc.ok ⟨true, false⟩
      (by decide) (by decide)).1,
   by decide, by decide,
   ((set_order_independent SimpleStorage.new [97] [98] [] [] Alloc.ok Alloc.ok
      (by decide) (by decide)).2.2.2 _ _ (by decide) (by decide)).1,
   ((set_order_independent SimpleStorage.new [97] [98] [] [] Alloc.ok Alloc.ok
      (by decide) (by decide)).2.2.2 _ [([99], [51]), ([97], [49]), ([98], [50])]
      (by decide) (by decide)).2.1⟩

/-- C18 (enumeration order).  The comparator of the map is the byte-wise
lexicographic order on strings.  In a store built by any sequence of calls
the keys `getAllKeys` joins are strictly ascending in that order; and two
sequences of calls that end with the same set of keys end with the same key
sequence and the same `getAllKeys()` string. -/
theorem getAllKeys_ascending (ops1 ops2 : List Op)
    (hkeys : ∀ k, (run SimpleStorage.new ops1).has k = (run SimpleStorage.new ops2).has k) :
    (∀ a b : CppString, strLess a b = true ↔ List.Lex (fun x y : Byte => x < y) a b) ∧
    (run SimpleStorage.new ops1).keys.Pairwise (fun a b => strLess a b = true) ∧
    (run SimpleStorage.new ops1).getAllKeys =
      List.intercalate comma (run SimpleStorage.new ops1).keys ∧
    (run SimpleStorage.new ops1).keys = (run SimpleStorage.new ops2).keys ∧
    (run SimpleStorage.new ops1).getAllKeys = (run SimpleStorage.new ops2).getAllKeys := by
  have h1 := wellFormed_run ops1 SimpleStorage.wellFormed_new
  have h2 := wellFormed_run ops2 SimpleStorage.wellFormed_new
  have hk := SimpleStorage.keys_eq_of_has_eq h1 h2 hkeys
  refine ⟨strLess_iff_lex, StdMap.keys_sorted h1, SimpleStorage.getAllKeys_eq_intercalate _,
    hk, ?_⟩
  rw [SimpleStorage.getAllKeys_eq_intercalate, SimpleStorage.getAllKeys_eq_intercalate, hk]

/-- The keys `b`, `a` inserted in that order, and `a`, `c`, `b` inserted with
`c` removed afterwards: both sequences end in the store `a ↦ 1, b ↦ 2`, and
the result is `a,b` for both. -/
theorem getAllKeys_ascending_witness :
    run SimpleStorage.new [Op.set Alloc.ok [98] [50], Op.set Alloc.ok [97] [49]] = storeAB ∧
    (run SimpleStorage.new
      [Op.set Alloc.ok [97] [49], Op.set Alloc.ok [99] [51], Op.set Alloc.ok [98] [50],
       Op.remove [99]]) = storeAB ∧
    (run SimpleStorage.new [Op.set Alloc.ok [98] [50], Op.set Alloc.ok [97] [49]]).getAllKeys =
      (run SimpleStorage.new
        [Op.set Alloc.ok [97] [49], Op.set Alloc.ok [99] [51], Op.set Alloc.ok [98] [50],
         Op.remove [99]]).getAllKeys ∧
    (run SimpleStorage.new [Op.set Alloc.ok [98] [50], Op.set Alloc.ok [97] [49]]).getAllKeys =
      [97, 44, 98] :=
  ⟨by decide, by decide,
   (getAllKeys_ascending [Op.set Alloc.ok [98] [50], Op.set Alloc.ok [97] [49]]
      [Op.set Alloc.ok [97] [49], Op.set Alloc.ok [99] [51], Op.set Alloc.ok [98] [50],
       Op.remove [99]]
      (fun _ => rfl)).2.2.2.2,
   by decide⟩

/-- C19 (last write wins).  `set(k, v1)` then `set(k, v2)`, both returning
true, leaves exactly the store `set(k, v2)` alone leaves; so repeating
`set(k, v)` changes nothing, the earlier value leaves no trace, `get(k)` is
`v2`, and the second call does not change the size. -/
theorem set_last_write_wins (s : SimpleStorage) (k v1 v2 : CppString) :
    (s.set Alloc.ok k v1).2.set Alloc.ok k v2 = s.set Alloc.ok k v2 ∧
    (s.set Alloc.ok k v2).2.set Alloc.ok k v2 = s.set Alloc.ok k v2 ∧
    ((s.set Alloc.ok k v1).2.set Alloc.ok k v2).2.get k = some v2 ∧
    ((s.set Alloc.ok k v1).2.set Alloc.ok k v2).2.size = (s.set Alloc.ok k v1).2.size ∧
    ∀ a1 a2 : Alloc, (s.set a1 k v1).1 = true → ((s.set a1 k v1).2.set a2 k v2).1 = true →
      ((s.set a1 k v1).2.set a2 k v2).2 = (s.set Alloc.ok k v2).2 := by
  have h12 := SimpleStorage.set_ok_set_ok s k v1 v2
  have hhas : (s.set Alloc.ok k v1).2.has k = true := by
    unfold SimpleStorage.has
    rw [SimpleStorage.find_set_ok_self]
    rfl
  refine ⟨h12, SimpleStorage.set_ok_set_ok s k v2 v2, ?_, ?_, ?_⟩
  · exact SimpleStorage.get_set_self Alloc.ok _ k v2 (SimpleStorage.set_ok_fst _ k v2)
  · exact SimpleStorage.size_set_of_has Alloc.ok _ k v2 hhas
  · intro a1 a2 ht1 ht2
    have e1 := SimpleStorage.set_eq_ok_of_true a1 s k v1 ht1
    rw [e1] at ht2 ⊢
    rw [SimpleStorage.set_eq_ok_of_true a2 _ k v2 ht2, h12]

/-- Overwriting `a ↦ 1` with `3` and then `4`, the second call with an
allocation state whose node creation would fail but is not needed. -/
theorem set_last_write_wins_witness :
    (storeAB.set Alloc.ok [97] [51]).1 = true ∧
    ((storeAB.set Alloc.ok [97] [51]).2.set ⟨false, true⟩ [97] [52]).1 = true ∧
    ((storeAB.set Alloc.ok [97] [51]).2.set ⟨false, true⟩ [97] [52]).2 =
      (storeAB.set Alloc.ok [97] [52]).2 ∧
    (storeAB.set Alloc.ok [97] [52]).2 = ⟨[([97], [52]), ([98], [50])]⟩ :=
  ⟨by decide, by decide,
   (set_last_write_wins storeAB [97] [51] [52]).2.2.2.2 Alloc.ok ⟨false, true⟩
     (by decide) (by decide),
   by decide⟩

/-- C17, as stated, fails: the empty store and the store whose only key is the
empty string are both reachable, none of their keys contains the separator,
`getAllKeys()` returns the empty string on both, and their key sets differ
(`has("")` is false on one and true on the other).  Splitting the result of
the empty store at the separator gives one empty string, not its keys. -/
theorem getAllKeys_empty_key_collision :
    Reachable SimpleStorage.new ∧ Reachable storeEmptyKey ∧
    (∀ k ∈ SimpleStorage.new.keys, noSeparator k) ∧
    (∀ k ∈ storeEmptyKey.keys, noSeparator k) ∧
    SimpleStorage.new.getAllKeys = storeEmptyKey.getAllKeys ∧
    SimpleStorage.new.has [] = false ∧ storeEmptyKey.has [] = true ∧
    SimpleStorage.new.keys ≠ storeEmptyKey.keys ∧
    List.splitOn (44 : Byte) SimpleStorage.new.getAllKeys ≠ SimpleStorage.new.keys :=
  ⟨⟨[], rfl⟩, ⟨[Op.set Alloc.ok [] [49]], by decide⟩, by decide, by decide, by decide,
   by decide, by decide, by decide, by decide⟩

/-- C17, amended.  For two stores none of whose keys contains the separator,
equal `getAllKeys()` strings give equal key sequences, hence equal key sets,
unless one store is empty and the other holds the empty string as its only
key; and splitting the result of a non-empty store at the separator gives
back its keys. -/
theorem getAllKeys_determines_keys (s1 s2 : SimpleStorage)
    (h1 : s1.WellFormed) (h2 : s2.WellFormed)
    (hsep1 : ∀ k ∈ s1.keys, noSeparator k) (hsep2 : ∀ k ∈ s2.keys, noSeparator k)
    (heq : s1.getAllKeys = s2.getAllKeys)
    (hex : ¬ (s1.keys = [] ∧ s2.keys = [[]]) ∧ ¬ (s1.keys = [[]] ∧ s2.keys = [])) :
    s1.keys = s2.keys ∧
    (∀ k, s1.has k = s2.has k) ∧
    (s1.keys ≠ [] → List.splitOn (44 : Byte) s1.getAllKeys = s1.keys) := by
  rw [SimpleStorage.getAllKeys_eq_intercalate, SimpleStorage.getAllKeys_eq_intercalate] at heq
  have hkeys : s1.keys = s2.keys := by
    by_cases e1 : s1.keys = []
    · by_cases e2 : s2.keys = []
      · rw [e1, e2]
      · have hj : List.intercalate comma s2.keys = [] := by
          rw [← heq, e1]
          rfl
        exact absurd ⟨e1, eq_singleton_nil_of_intercalate_eq_nil e2 hsep2 hj⟩ hex.1
    · by_cases e2 : s2.keys = []
      · have hj : List.intercalate comma s1.keys = [] := by
          rw [heq, e2]
          rfl
        exact absurd ⟨eq_singleton_nil_of_intercalate_eq_nil e1 hsep1 hj, e2⟩ hex.2
      · rw [← splitOn_intercalate_comma e1 hsep1, ← splitOn_intercalate_comma e2 hsep2, heq]
  refine ⟨hkeys, ?_, ?_⟩
  · intro k
    have e1 := SimpleStorage.has_iff_mem_keys h1 k
    have e2 := SimpleStorage.has_iff_mem_keys h2 k
    rw [hkeys] at e1
    rw [Bool.eq_iff_iff, e1, e2]
  · intro hne
    rw [SimpleStorage.getAllKeys_eq_intercalate]
    exact splitOn_intercalate_comma hne hsep1

/-- The stores `a ↦ 1, b ↦ 2` and `a ↦ 3, b ↦ 4`: same result `a,b`, same
keys. -/
theorem getAllKeys_determines_keys_witness :
    storeAB.WellFormed ∧ (⟨[([97], [51]), ([98], [52])]⟩ : SimpleStorage).WellFormed ∧
    (∀ k ∈ storeAB.keys, noSeparator k) ∧
    (∀ k ∈ (⟨[([97], [51]), ([98], [52])]⟩ : SimpleStorage).keys, noSeparator k) ∧
    storeAB.getAllKeys = (⟨[([97], [51]), ([98], [52])]⟩ : SimpleStorage).getAllKeys ∧
    (¬ (storeAB.keys = [] ∧ (⟨[([97], [51]), ([98], [52])]⟩ : SimpleStorage).keys = [[]]) ∧
      ¬ (storeAB.keys = [[]] ∧ (⟨[([97], [51]), ([98], [52])]⟩ : SimpleStorage).keys = [])) ∧
    storeAB.keys = (⟨[([97], [51]), ([98], [52])]⟩ : SimpleStorage).keys ∧
    storeAB.keys ≠ [] ∧
    List.splitOn (44 : Byte) storeAB.getAllKeys = storeAB.keys :=
  ⟨by decide, by decide, by decide, by decide, by decide, by decide,
   (getAllKeys_determines_keys storeAB ⟨[([97], [51]), ([98], [52])]⟩ (by decide) (by decide)
      (by decide) (by decide) (by decide) (by decide)).1,
   by decide,
   (getAllKeys_determines_keys storeAB ⟨[([97], [51]), ([98], [52])]⟩ (by decide) (by decide)
      (by decide) (by decide) (by decide) (by decide)).2.2 (by decide)⟩

end storage
